import Mathlib

/-
Verification development for the collaborative text buffer CRDT in
src/zed/src/editor/buffer/mod.rs.

The buffer module itself is translated directly from the Rust source.
Its supporting modules (`time`, `sum_tree`, `text`, `operation_queue`,
`anchor`) are not part of the source tree; they are modelled from the
specification (spec.md sections 3 and 4.1), as marked on each definition.

Conventions of the embedding:
- the fragment sum tree is represented as the ordered list of its leaves
  (spec 4.1: leaves are fragments in dense-id order; cursor seeks are
  prefix scans over the accumulated dimension);
- `Instant` is a natural number of milliseconds, `Duration` a natural
  number; `Instant` subtraction is truncated subtraction;
- u16 arithmetic in `FragmentId::between_with_max` is modelled with
  explicit wrap-around modulo 2^16 (release-mode Rust semantics);
- Rust `Result`/panics become `Except BufErr`.
-/

namespace Zed

/-- Modelled from the spec: local timestamp `(replica_id, counter)`,
monotone per replica (spec section 3: Local timestamp; module `time` is
not in the source tree). -/
structure LocalTs where
  replicaId : Nat
  value : Nat
deriving DecidableEq, Repr

/-- Modelled from the spec: Lamport timestamp `(counter, replica_id)`
ordered lexicographically with the counter first (spec section 3). -/
structure Lamport where
  value : Nat
  replicaId : Nat
deriving DecidableEq, Repr

def Lamport.lt (a b : Lamport) : Bool :=
  a.value < b.value || (a.value = b.value && a.replicaId < b.replicaId)

def LocalTs.new (replicaId : Nat) : LocalTs := ⟨replicaId, 1⟩

/-- Modelled from the spec: ticking returns the current timestamp and
advances the counter. -/
def LocalTs.tick (c : LocalTs) : LocalTs × LocalTs :=
  (c, ⟨c.replicaId, c.value + 1⟩)

/-- Modelled from the spec (section 4.4): the local clock advances to
dominate any observed timestamp. -/
def LocalTs.observe (c : LocalTs) (t : LocalTs) : LocalTs :=
  ⟨c.replicaId, max c.value t.value + 1⟩

def Lamport.new (replicaId : Nat) : Lamport := ⟨1, replicaId⟩

def Lamport.tick (c : Lamport) : Lamport × Lamport :=
  (c, ⟨c.value + 1, c.replicaId⟩)

/-- Modelled from the spec (section 6): every operation's lamport exceeds
any Lamport timestamp observed by its author. -/
def Lamport.observe (c : Lamport) (t : Lamport) : Lamport :=
  ⟨max c.value t.value + 1, c.replicaId⟩

/-- Modelled from the spec: the global version, a mapping
`replica_id -> counter` representing the set of local timestamps
observed (spec section 3).  Represented as the list of observed
timestamps; the counter of a replica is the maximum observed value. -/
def Global := List LocalTs
deriving DecidableEq, Repr

def Global.new : Global := []

/-- The counter recorded for a replica: maximum observed value, 0 if none. -/
def Global.counterOf (g : Global) (r : Nat) : Nat :=
  (g.filter (fun t => t.replicaId = r)).foldl (fun acc t => max acc t.value) 0

def Global.observed (g : Global) (t : LocalTs) : Bool :=
  t.value ≤ g.counterOf t.replicaId

def Global.observe (g : Global) (t : LocalTs) : Global := t :: g

def Global.observeAll (g : Global) (other : Global) : Global :=
  match other with
  | [] => g
  | t :: rest => Global.observeAll (g.observe t) rest

/-- Pointwise partial order on versions (`version_in_range <= version`). -/
def Global.le (a b : Global) : Bool :=
  a.all (fun t => b.observed t)

def Global.changedSince (g : Global) (base : Global) : Bool :=
  g.any (fun t => !(base.observed t))

/-- Dense fragment identifier: a variable-length sequence of 16-bit
digits (`FragmentId(Arc<[u16]>)` in the source). -/
def FragmentId := List Nat
deriving DecidableEq, Repr

/-- The derived `Ord` of `Arc<[u16]>`: plain lexicographic order on digit
sequences, where a strict prefix sorts before its extensions. -/
def FragmentId.lt : FragmentId → FragmentId → Bool
  | [], [] => false
  | [], _ :: _ => true
  | _ :: _, [] => false
  | a :: as_, b :: bs => a < b || (a = b && FragmentId.lt as_ bs)

def FragmentId.minValue : FragmentId := [0]

def FragmentId.maxValue : FragmentId := [65535]

/-- One digit step of `FragmentId::between_with_max`: left digits padded
with 0, right digits padded with `m`; `interval = r - l` with u16
wrap-around; on `interval > 1` push `l + max 1 (min 8 (interval / 2))`
(u16 wrap-around) and stop, otherwise push `l` and continue.  The fuel
always suffices when `2 ≤ m` (beyond both inputs the interval is `m`). -/
def FragmentId.betweenAux (m : Nat) : Nat → List Nat → List Nat → List Nat
  | 0, _, _ => []
  | n + 1, ls, rs =>
    let l := ls.headD 0
    let r := rs.headD m
    let interval := (r + 65536 - l) % 65536
    if interval > 1 then
      [(l + max 1 (min 8 (interval / 2))) % 65536]
    else
      l :: FragmentId.betweenAux m n ls.tail rs.tail

def FragmentId.betweenWithMax (left right : FragmentId) (m : Nat) : FragmentId :=
  FragmentId.betweenAux m (List.length left + List.length right + 1) left right

def FragmentId.between (left right : FragmentId) : FragmentId :=
  FragmentId.betweenWithMax left right 65535

/-- `Insertion`: immutable record of one edit's inserted text
(`Insertion` in the source).  The `text` module is not in the source
tree; modelled from the spec as a character list. -/
structure Insertion where
  id : LocalTs
  parentId : LocalTs
  offsetInParent : Nat
  text : List Char
  lamportTimestamp : Lamport
deriving DecidableEq, Repr

/-- `Fragment`: a contiguous slice `[startOff, endOff)` of one
insertion's text.  The Rust `text: Text` field (a shared slice of the
insertion text) is represented by the pair of offsets. -/
structure Fragment where
  id : FragmentId
  insertion : Insertion
  startOff : Nat
  endOff : Nat
  deletions : List LocalTs
  maxUndos : Global
  visible : Bool
deriving DecidableEq, Repr

/-- The characters of the fragment's slice (`Fragment::text`). -/
def Fragment.text (f : Fragment) : List Char :=
  (f.insertion.text.take f.endOff).drop f.startOff

def Fragment.len (f : Fragment) : Nat := f.endOff - f.startOff

def Fragment.visibleLen (f : Fragment) : Nat := if f.visible then f.len else 0

/-- `InsertionSplit`: one `(extent, fragment_id)` entry of an
insertion's split index. -/
structure InsertionSplit where
  extent : Nat
  fragmentId : FragmentId
deriving DecidableEq, Repr

structure UndoOperation where
  id : LocalTs
  editId : LocalTs
  count : Nat
deriving DecidableEq, Repr

structure EditOperation where
  id : LocalTs
  startId : LocalTs
  startOffset : Nat
  endId : LocalTs
  endOffset : Nat
  versionInRange : Global
  newText : Option (List Char)
deriving DecidableEq, Repr

inductive AnchorBias where
  | left
  | right
deriving DecidableEq, Repr

/-- Modelled from the spec: `Anchor` is `Start`, `End`, or
`Middle { insertion_id, offset, bias }` (spec section 3; the `anchor`
module is not in the source tree). -/
inductive Anchor where
  | start
  | stop
  | middle (insertionId : LocalTs) (offset : Nat) (bias : AnchorBias)
deriving DecidableEq, Repr

inductive SelectionGoal where
  | none
  | column (n : Nat)
deriving DecidableEq, Repr

/-- Modelled from the spec: a selection `{ id, start, end, reversed,
goal }` (spec section 3; the `selection` module is not in the source
tree).  The `end` anchor is named `stop` (`end` is reserved in Lean). -/
structure Selection where
  id : Nat
  start : Anchor
  stop : Anchor
  reversed : Bool
  goal : SelectionGoal
deriving DecidableEq, Repr

inductive Operation where
  | edit (edit : EditOperation) (lamportTimestamp : Lamport)
  | undo (undo : UndoOperation) (lamportTimestamp : Lamport)
  | updateSelections (setId : Lamport) (selections : Option (List Selection))
      (lamportTimestamp : Lamport)
deriving DecidableEq, Repr

def Operation.lamportTimestamp : Operation → Lamport
  | .edit _ l => l
  | .undo _ l => l
  | .updateSelections _ _ l => l

def Operation.replicaId (op : Operation) : Nat :=
  op.lamportTimestamp.replicaId

/-- `UndoMap`: per edit, the list of undo records.  Represented as the
flat list of all recorded `UndoOperation`s. -/
def UndoMap := List UndoOperation
deriving DecidableEq, Repr

def UndoMap.insert (m : UndoMap) (u : UndoOperation) : UndoMap := u :: m

def UndoMap.undoCount (m : UndoMap) (editId : LocalTs) : Nat :=
  (m.filter (fun u => u.editId = editId)).foldl (fun acc u => max acc u.count) 0

def UndoMap.isUndone (m : UndoMap) (editId : LocalTs) : Bool :=
  m.undoCount editId % 2 = 1

/-- `UndoMap::was_undone`: maximum count among records observed by
`version`, odd. -/
def UndoMap.wasUndone (m : UndoMap) (editId : LocalTs) (version : Global) : Bool :=
  ((m.filter (fun u => u.editId = editId && version.observed u.id)).foldl
    (fun acc u => max acc u.count) 0) % 2 = 1

/-- `Fragment::is_visible`. -/
def Fragment.isVisible (f : Fragment) (undos : UndoMap) : Bool :=
  !undos.isUndone f.insertion.id && f.deletions.all (fun d => undos.isUndone d)

/-- `Fragment::was_visible`. -/
def Fragment.wasVisible (f : Fragment) (version : Global) (undos : UndoMap) : Bool :=
  (version.observed f.insertion.id && !(undos.wasUndone f.insertion.id version))
    && f.deletions.all (fun d => !(version.observed d) || undos.wasUndone d version)

/-- `Fragment::summary().max_version`: the insertion id, all deletion
ids and all recorded undos of the fragment. -/
def Fragment.maxVersion (f : Fragment) : Global :=
  ((Global.new.observe f.insertion.id).observeAll
      (f.deletions.map (fun d => d))).observeAll f.maxUndos

/-- Transaction of the undo history.  `Instant`s are naturals. -/
structure Transaction where
  start : Global
  bufferWasDirty : Bool
  edits : List LocalTs
  selectionsBefore : Option (Lamport × List Selection)
  selectionsAfter : Option (Lamport × List Selection)
  firstEditAt : Nat
  lastEditAt : Nat
deriving DecidableEq, Repr

structure History where
  baseText : List Char
  ops : List (LocalTs × EditOperation)
  undoStack : List Transaction
  redoStack : List Transaction
  transactionDepth : Nat
  groupInterval : Nat
deriving DecidableEq, Repr

def UNDO_GROUP_INTERVAL : Nat := 300

def History.new (baseText : List Char) : History :=
  ⟨baseText, [], [], [], 0, UNDO_GROUP_INTERVAL⟩

def History.push (h : History) (op : EditOperation) : History :=
  { h with ops := (op.id, op) :: h.ops.filter (fun p => p.1 ≠ op.id) }

def History.lookup (h : History) (id : LocalTs) : Option EditOperation :=
  (h.ops.find? (fun p => p.1 = id)).map (·.2)

def History.startTransaction (h : History) (start : Global) (wasDirty : Bool)
    (selections : Option (Lamport × List Selection)) (now : Nat) : History :=
  let h := { h with transactionDepth := h.transactionDepth + 1 }
  if h.transactionDepth = 1 then
    { h with undoStack := h.undoStack ++
        [⟨start, wasDirty, [], selections, none, now, now⟩] }
  else h

/-- `History::end_transaction`; errors where Rust asserts or unwraps. -/
inductive BufErr where
  | panic
  | invalidOperation
  | offsetOutOfRange
  | invalidSelectionSet
deriving DecidableEq, Repr

def History.endTransaction (h : History)
    (selections : Option (Lamport × List Selection)) (now : Nat) :
    Except BufErr (History × Option Transaction) :=
  if h.transactionDepth = 0 then .error .panic
  else
    let h := { h with transactionDepth := h.transactionDepth - 1 }
    if h.transactionDepth = 0 then
      match h.undoStack.getLast? with
      | none => .error .panic
      | some t =>
        let t := { t with selectionsAfter := selections, lastEditAt := now }
        .ok ({ h with undoStack := h.undoStack.dropLast ++ [t] }, some t)
    else .ok (h, none)

/-- `History::group`: examines only the newest adjacent pair of the undo
stack (the Rust `for` loop iterates an `Option`, hence at most once). -/
def History.group (h : History) : History :=
  match h.undoStack.getLast? with
  | none => h
  | some cur =>
    match h.undoStack.dropLast.getLast? with
    | none => h
    | some prev =>
      if cur.firstEditAt - prev.lastEditAt ≤ h.groupInterval then
        let merged := { prev with
          edits := prev.edits ++ cur.edits,
          lastEditAt := cur.lastEditAt,
          selectionsAfter := cur.selectionsAfter }
        { h with undoStack := h.undoStack.dropLast.dropLast ++ [merged] }
      else h

def History.pushUndo (h : History) (editId : LocalTs) : Except BufErr History :=
  if h.transactionDepth = 0 then .error .panic
  else
    match h.undoStack.getLast? with
    | none => .error .panic
    | some t =>
      .ok { h with undoStack :=
        h.undoStack.dropLast ++ [{ t with edits := t.edits ++ [editId] }] }

def History.popUndo (h : History) : Except BufErr (History × Option Transaction) :=
  if h.transactionDepth ≠ 0 then .error .panic
  else
    match h.undoStack.getLast? with
    | none => .ok (h, none)
    | some t =>
      let h' := { h with
        undoStack := h.undoStack.dropLast
        redoStack := h.redoStack ++ [t] }
      .ok (h', some t)

def History.popRedo (h : History) : Except BufErr (History × Option Transaction) :=
  if h.transactionDepth ≠ 0 then .error .panic
  else
    match h.redoStack.getLast? with
    | none => .ok (h, none)
    | some t =>
      let h' := { h with
        redoStack := h.redoStack.dropLast
        undoStack := h.undoStack ++ [t] }
      .ok (h', some t)

/-- The buffer.  `file`, `saved_version` and event context are out of
scope (they concern file handles and the UI layer). -/
structure Buffer where
  fragments : List Fragment
  insertionSplits : List (LocalTs × List InsertionSplit)
  version : Global
  lastEdit : LocalTs
  undoMap : UndoMap
  history : History
  selections : List (Lamport × List Selection)
  selectionsLastUpdate : Nat
  deferredOps : List Operation
  deferredReplicas : List Nat
  replicaId : Nat
  localClock : LocalTs
  lamportClock : Lamport
deriving DecidableEq, Repr

def SplitsMap := List (LocalTs × List InsertionSplit)
deriving DecidableEq, Repr

def SplitsMap.lookup (m : SplitsMap) (id : LocalTs) : Option (List InsertionSplit) :=
  (m.find? (fun p => p.1 = id)).map (·.2)

def SplitsMap.insert (m : SplitsMap) (id : LocalTs) (tree : List InsertionSplit) :
    SplitsMap :=
  (id, tree) :: m.filter (fun p => p.1 ≠ id)

def SplitsMap.remove (m : SplitsMap) (id : LocalTs) : SplitsMap :=
  m.filter (fun p => p.1 ≠ id)

/-- `Buffer::build` (with `Buffer::new` below): the base insertion with
the default timestamp, the zero-length minimum fragment, and, when the
base text is nonempty, one fragment holding the whole base text. -/
def Buffer.new (replicaId : Nat) (baseText : List Char) : Buffer :=
  let baseInsertion : Insertion := ⟨⟨0, 0⟩, ⟨0, 0⟩, 0, baseText, ⟨0, 0⟩⟩
  let minFragment : Fragment :=
    ⟨FragmentId.minValue, baseInsertion, 0, 0, [], Global.new, true⟩
  let baseSplits : List InsertionSplit := [⟨0, FragmentId.minValue⟩]
  let (fragments, baseSplits) :=
    if baseText.length > 0 then
      let baseId := FragmentId.between FragmentId.minValue FragmentId.maxValue
      ([minFragment, ⟨baseId, baseInsertion, 0, baseText.length, [], Global.new, true⟩],
       baseSplits ++ [⟨baseText.length, baseId⟩])
    else ([minFragment], baseSplits)
  { fragments := fragments,
    insertionSplits := [(⟨0, 0⟩, baseSplits)],
    version := Global.new,
    lastEdit := ⟨0, 0⟩,
    undoMap := [],
    history := History.new baseText,
    selections := [],
    selectionsLastUpdate := 0,
    deferredOps := [],
    deferredReplicas := [],
    replicaId := replicaId,
    localClock := LocalTs.new replicaId,
    lamportClock := Lamport.new replicaId }

/-- `Buffer::text`: concatenation of the visible fragments' text
(the semantics of `CharIter` over the fragment tree). -/
def Buffer.text (b : Buffer) : List Char :=
  b.fragments.foldr (fun f acc => (if f.visible then f.text else []) ++ acc) []

/-- `Buffer::len`: the `usize` extent of the fragment tree, i.e. the sum
of the visible fragments' lengths. -/
def Buffer.len (b : Buffer) : Nat :=
  b.fragments.foldr (fun f acc => f.visibleLen + acc) 0

/-- Modelled from the spec (section 4.1, sum-tree cursor): `slice` with
`SeekBias::Right` over a weighted list: consume items while the running
dimension including the item stays `≤ target`.  Returns the consumed
items, the dimension at the final position, and the remainder. -/
def sliceSumRight {α : Type} (w : α → Nat) (target : Nat) :
    Nat → List α → List α × Nat × List α
  | acc, [] => ([], acc, [])
  | acc, x :: rest =>
    if acc + w x ≤ target then
      let r := sliceSumRight w target (acc + w x) rest
      (x :: r.1, r.2.1, r.2.2)
    else ([], acc, x :: rest)

/-- Modelled from the spec (section 4.1): `slice`/`seek` with
`SeekBias::Left`: consume items while the running dimension including
the item stays `< target`. -/
def sliceSumLeft {α : Type} (w : α → Nat) (target : Nat) :
    Nat → List α → List α × Nat × List α
  | acc, [] => ([], acc, [])
  | acc, x :: rest =>
    if acc + w x < target then
      let r := sliceSumLeft w target (acc + w x) rest
      (x :: r.1, r.2.1, r.2.2)
    else ([], acc, x :: rest)

/-- Modelled from the spec (section 4.1): slice by the max-fragment-id
dimension with `SeekBias::Left`: consume fragments whose id is below the
target. -/
def spanIdLt (target : FragmentId) (frags : List Fragment) :
    List Fragment × List Fragment :=
  (frags.takeWhile (fun f => FragmentId.lt f.id target),
   frags.dropWhile (fun f => FragmentId.lt f.id target))

/-- `Buffer::resolve_fragment_id`: look up the insertion's split tree
and seek to the split containing `offset` with left bias. -/
def Buffer.resolveFragmentId (b : Buffer) (editId : LocalTs) (offset : Nat) :
    Except BufErr FragmentId :=
  match SplitsMap.lookup b.insertionSplits editId with
  | none => .error .invalidOperation
  | some tree =>
    match (sliceSumLeft (·.extent) offset 0 tree).2.2 with
    | [] => .error .invalidOperation
    | s :: _ => .ok s.fragmentId

/-- `Buffer::split_fragment`: split `frag` at the insertion-offset range
`[rs, re)` into before/within/after pieces, updating the insertion's
split tree in the general case. -/
def splitFragment (splits : SplitsMap) (prevFrag frag : Fragment) (rs re : Nat) :
    Except BufErr ((Option Fragment × Option Fragment × Option Fragment) × SplitsMap) :=
  if re = frag.startOff then .ok ((none, none, some frag), splits)
  else if rs = frag.endOff then .ok ((some frag, none, none), splits)
  else if rs = frag.startOff && re = frag.endOff then .ok ((none, some frag, none), splits)
  else
    let piece0 := frag
    let (afterRange, piece1) :=
      if re < frag.endOff then
        let suffix := { piece0 with startOff := re }
        (some suffix,
         { piece0 with endOff := re, id := FragmentId.between prevFrag.id suffix.id })
      else (none, piece0)
    let (withinRange, piece2) :=
      if rs ≠ re then
        let suffix := { piece1 with startOff := rs }
        (some suffix,
         { piece1 with endOff := rs, id := FragmentId.between prevFrag.id suffix.id })
      else (none, piece1)
    let beforeRange := if rs > frag.startOff then some piece2 else none
    match SplitsMap.lookup splits frag.insertion.id with
    | none => .error .panic
    | some oldTree =>
      let (pre, _, rest) := sliceSumRight (·.extent) frag.startOff 0 oldTree
      let mid :=
        (match beforeRange with
         | some f => [(⟨rs - frag.startOff, f.id⟩ : InsertionSplit)]
         | none => [])
        ++ (match withinRange with
            | some f => [(⟨re - rs, f.id⟩ : InsertionSplit)]
            | none => [])
        ++ (match afterRange with
            | some f => [(⟨frag.endOff - re, f.id⟩ : InsertionSplit)]
            | none => [])
      let newTree := pre ++ mid ++ rest.drop 1
      .ok ((beforeRange, withinRange, afterRange),
           splits.insert frag.insertion.id newTree)

/-- `Buffer::build_fragment_to_insert`: a fresh fragment for a new
insertion, placed between `prevFrag` and `next` (or the maximum id),
registering a single-entry split tree for the new insertion. -/
def buildFragmentToInsert (splits : SplitsMap) (prevFrag : Fragment)
    (next : Option Fragment) (text : List Char) (localTs : LocalTs)
    (lamTs : Lamport) : Fragment × SplitsMap :=
  let nid := FragmentId.between prevFrag.id
    (match next with | some f => f.id | none => FragmentId.maxValue)
  let ins : Insertion := ⟨localTs, prevFrag.insertion.id, prevFrag.endOff, text, lamTs⟩
  (⟨nid, ins, 0, text.length, [], Global.new, true⟩,
   splits.insert localTs [⟨text.length, nid⟩])

/-- Threaded state of `Buffer::splice_fragments`. -/
structure SpliceState where
  splits : SplitsMap
  newFrags : List Fragment
  ops : List Operation
  startId : Option LocalTs
  startOffset : Option Nat
  endId : Option LocalTs
  endOffset : Option Nat
  vir : Global
  localTs : LocalTs
  lamportTs : Lamport
  localClock : LocalTs
  lamportClock : Lamport
deriving Repr

/-- Emit the `Operation::Edit` for the finished splice range and reset
the per-range accumulators; tick the clocks when another range follows. -/
def spliceEmit (st : SpliceState) (newText : Option (List Char)) (more : Bool) :
    Except BufErr SpliceState :=
  match st.startId, st.startOffset, st.endId, st.endOffset with
  | some sid, some soff, some eid, some eoff =>
    let op := Operation.edit ⟨st.localTs, sid, soff, eid, eoff, st.vir, newText⟩ st.lamportTs
    let st := { st with
      ops := st.ops ++ [op]
      startId := none
      startOffset := none
      endId := none
      endOffset := none
      vir := Global.new }
    if more then
      let (ts, lc) := st.localClock.tick
      let (lam, lamc) := st.lamportClock.tick
      .ok { st with localTs := ts, lamportTs := lam, localClock := lc, lamportClock := lamc }
    else .ok st
  | _, _, _, _ => .error .panic

/-- The inner loop of `splice_fragments`: process every splice range
that starts inside the current fragment, peeling prefix pieces,
tombstoning and emitting operations.  Returns the updated state, the
remaining piece of the fragment, the updated `fragment_start`, the
remaining ranges and the split tree built so far. -/
def spliceInner (st : SpliceState) (newText : Option (List Char)) (fragEnd : Nat) :
    Fragment → Nat → List (Nat × Nat) → List InsertionSplit →
    Except BufErr (SpliceState × Fragment × Nat × List (Nat × Nat) × List InsertionSplit)
  | frag, fragStart, [], tree => .ok (st, frag, fragStart, [], tree)
  | frag, fragStart, (rs, re) :: moreRanges, tree =>
    if rs < fragEnd then do
      -- peel the piece before the range start
      let (st, frag, fragStart, tree) ←
        if rs > fragStart then do
          match st.newFrags.getLast? with
          | none => .error .panic
          | some last =>
            let pre := { frag with
              endOff := frag.startOff + (rs - fragStart)
              id := FragmentId.between last.id frag.id }
            let frag := { frag with startOff := pre.endOff }
            let tree := tree ++ [⟨pre.endOff - pre.startOff, pre.id⟩]
            .ok ({ st with newFrags := st.newFrags ++ [pre] }, frag, rs, tree)
        else .ok (st, frag, fragStart, tree)
      -- record the end anchor when it falls on a boundary
      let st ←
        if re = fragStart then
          match st.newFrags.getLast? with
          | none => .error .panic
          | some last =>
            .ok { st with endId := some last.insertion.id, endOffset := some last.endOff }
        else if re = fragEnd then
          .ok { st with endId := some frag.insertion.id, endOffset := some frag.endOff }
        else .ok st
      -- record the start anchor and insert the new text
      let st ←
        if rs = fragStart then
          match st.newFrags.getLast? with
          | none => .error .panic
          | some last =>
            let st := { st with
              startId := some last.insertion.id
              startOffset := some last.endOff }
            match newText with
            | some t =>
              let (nf, splits) :=
                buildFragmentToInsert st.splits last (some frag) t st.localTs st.lamportTs
              .ok { st with newFrags := st.newFrags ++ [nf], splits := splits }
            | none => .ok st
        else .ok st
      -- tombstone the covered part
      let (st, frag, fragStart, tree) ←
        if re < fragEnd then
          if re > fragStart then do
            match st.newFrags.getLast? with
            | none => .error .panic
            | some last =>
              let pre0 := { frag with
                endOff := frag.startOff + (re - fragStart)
                id := FragmentId.between last.id frag.id }
              let st := { st with vir := st.vir.observeAll frag.maxVersion }
              let pre :=
                if frag.visible then
                  { pre0 with deletions := st.localTs :: pre0.deletions, visible := false }
                else pre0
              let frag := { frag with startOff := pre.endOff }
              let tree := tree ++ [⟨pre.endOff - pre.startOff, pre.id⟩]
              let st := { st with
                newFrags := st.newFrags ++ [pre]
                endId := some frag.insertion.id
                endOffset := some frag.startOff }
              .ok (st, frag, re, tree)
          else .ok (st, frag, fragStart, tree)
        else
          let st := { st with vir := st.vir.observeAll frag.maxVersion }
          let frag :=
            if frag.visible then
              { frag with deletions := st.localTs :: frag.deletions, visible := false }
            else frag
          .ok (st, frag, fragStart, tree)
      -- finish this range or break out
      if re ≤ fragEnd then do
        let st ← spliceEmit st newText (moreRanges ≠ [])
        spliceInner st newText fragEnd frag fragStart moreRanges tree
      else
        .ok (st, frag, fragStart, (rs, re) :: moreRanges, tree)
    else
      .ok (st, frag, fragStart, (rs, re) :: moreRanges, tree)

/-- The scan-forward loop of `splice_fragments`: consume fragments that
are wholly contained in the current splice range, tombstoning them; on
reaching the range end emit the operation and advance to the next
range.  Returns the updated state, the final cursor dimension, the
`fragment_end` of the last examined fragment, the remaining fragments
and the remaining ranges. -/
def spliceScan (st : SpliceState) (newText : Option (List Char)) (rs re : Nat) :
    Nat → Nat → List Fragment → List (Nat × Nat) →
    Except BufErr (SpliceState × Nat × Nat × List Fragment × List (Nat × Nat))
  | pfx, lastEnd, [], ranges => .ok (st, pfx, lastEnd, [], ranges)
  | pfx, lastFragEnd, frag :: rest, ranges =>
    let fragStart := pfx
    let fragEnd := fragStart + frag.visibleLen
    if rs < fragStart && re ≥ fragEnd then do
      let st := { st with vir := st.vir.observeAll frag.maxVersion }
      let frag' :=
        if frag.visible then
          { frag with deletions := st.localTs :: frag.deletions, visible := false }
        else frag
      let st := { st with newFrags := st.newFrags ++ [frag'] }
      let pfx := pfx + frag.visibleLen
      if re = fragEnd then
        let st := { st with
          endId := some frag.insertion.id
          endOffset := some frag.endOff }
        let moreRanges := ranges.tail
        let st ← spliceEmit st newText (moreRanges ≠ [])
        .ok (st, pfx, fragEnd, rest, moreRanges)
      else
        spliceScan st newText rs re pfx fragEnd rest ranges
    else
      .ok (st, pfx, fragEnd, frag :: rest, ranges)

theorem spliceScan_rest_length (st : SpliceState) (newText : Option (List Char))
    (rs re : Nat) :
    ∀ (pfx lastFragEnd : Nat) (frags : List Fragment) (ranges : List (Nat × Nat))
      (out : SpliceState × Nat × Nat × List Fragment × List (Nat × Nat)),
      spliceScan st newText rs re pfx lastFragEnd frags ranges = .ok out →
      out.2.2.2.1.length ≤ frags.length := by
  intro pfx lastFragEnd frags
  induction frags generalizing st pfx lastFragEnd with
  | nil =>
    intro ranges out h
    simp only [spliceScan] at h
    cases h
    simp
  | cons frag rest ih =>
    intro ranges out h
    simp only [spliceScan] at h
    by_cases hc : (rs < pfx && re ≥ pfx + frag.visibleLen) = true
    · rw [if_pos hc] at h
      by_cases he : re = pfx + frag.visibleLen
      · rw [if_pos he] at h
        simp only [bind, Except.bind] at h
        cases hemit : spliceEmit { st with
            vir := st.vir.observeAll frag.maxVersion,
            newFrags := st.newFrags ++ [if frag.visible then
              { frag with deletions := st.localTs :: frag.deletions, visible := false }
              else frag],
            endId := some frag.insertion.id,
            endOffset := some frag.endOff } newText (ranges.tail ≠ []) with
        | error e => rw [hemit] at h; cases h
        | ok st' =>
          rw [hemit] at h
          cases h
          simp
      · rw [if_neg he] at h
        have := ih _ _ _ _ _ h
        simp at this ⊢
        omega
    · rw [if_neg hc] at h
      cases h
      simp

theorem sliceSumRight_rest_length {α : Type} (w : α → Nat) (target : Nat) :
    ∀ (acc : Nat) (l : List α), (sliceSumRight w target acc l).2.2.length ≤ l.length := by
  intro acc l
  induction l generalizing acc with
  | nil => simp [sliceSumRight]
  | cons x rest ih =>
    simp only [sliceSumRight]
    by_cases hc : acc + w x ≤ target
    · rw [if_pos hc]
      have h := ih (acc + w x)
      simp only [List.length_cons]
      omega
    · rw [if_neg hc]

/-- The outer loop of `splice_fragments`: walk the fragments,
dispatching each to the inner loop and the scan-forward loop.  The loop
consumes at least one fragment per iteration; the fuel argument makes
the recursion structural (`spliceOuter_fuel_sufficient` below shows a
fuel of one more than the number of fragments never runs out). -/
def spliceOuter (newText : Option (List Char)) :
    Nat → SpliceState → List (Nat × Nat) → Nat → List Fragment → Except BufErr SpliceState
  | 0, _, _, _, _ => .error .panic
  | _ + 1, st, [], _, oldFrags =>
    .ok { st with newFrags := st.newFrags ++ oldFrags }
  | _ + 1, st, (rs, re) :: more, _, [] => do
    -- the range lies at the end of the buffer
    match st.newFrags.getLast? with
    | none => .error .panic
    | some last =>
      let op := Operation.edit
        ⟨st.localTs, last.insertion.id, last.endOff, last.insertion.id, last.endOff,
         Global.new, newText⟩ st.lamportTs
      let st := { st with ops := st.ops ++ [op] }
      match newText with
      | some t =>
        let (nf, splits) := buildFragmentToInsert st.splits last none t st.localTs st.lamportTs
        .ok { st with newFrags := st.newFrags ++ [nf], splits := splits }
      | none => .ok st
  | fuel + 1, st, (rs, re) :: more, pfx, frag :: rest => do
    let fragStart := pfx
    let fragEnd := fragStart + frag.visibleLen
    match SplitsMap.lookup st.splits frag.insertion.id with
    | none => .error .panic
    | some oldTree =>
      let st := { st with splits := st.splits.remove frag.insertion.id }
      let preTree := (sliceSumRight (·.extent) frag.startOff 0 oldTree).1
      let restTree := (sliceSumRight (·.extent) frag.startOff 0 oldTree).2.2
      match spliceInner st newText fragEnd frag fragStart ((rs, re) :: more) preTree with
      | .error e => .error e
      | .ok (st, frag', _, ranges', newTree) =>
        let newTree := newTree
          ++ [⟨frag'.endOff - frag'.startOff, frag'.id⟩]
          ++ restTree.drop 1
        let st := { st with
          splits := st.splits.insert frag.insertion.id newTree
          newFrags := st.newFrags ++ [frag'] }
        let pfx := pfx + frag.visibleLen
        match ranges' with
        | [] => spliceOuter newText fuel st [] pfx rest
        | (rs2, re2) :: _ =>
          match spliceScan st newText rs2 re2 pfx fragEnd rest ranges' with
          | .error e => .error e
          | .ok (st, pfx2, lastEnd, rest2, ranges2) =>
            match ranges2 with
            | [] => spliceOuter newText fuel st [] pfx2 rest2
            | (rs3, _) :: _ =>
              if rs3 > lastEnd then
                let sl := sliceSumRight Fragment.visibleLen rs3 pfx2 rest2
                let st := { st with newFrags := st.newFrags ++ sl.1 }
                spliceOuter newText fuel st ranges2 sl.2.1 sl.2.2
              else
                spliceOuter newText fuel st ranges2 pfx2 rest2

/-- `Buffer::splice_fragments`. -/
def Buffer.spliceFragments (b : Buffer) (oldRanges : List (Nat × Nat))
    (newText : Option (List Char)) : Except BufErr (List Operation × Buffer) :=
  match oldRanges with
  | [] => .ok ([], b)
  | (rs, re) :: more => do
    let sl := sliceSumRight Fragment.visibleLen rs 0 b.fragments
    let (ts, lc) := b.localClock.tick
    let (lam, lamc) := b.lamportClock.tick
    let st : SpliceState := {
      splits := b.insertionSplits
      newFrags := sl.1
      ops := []
      startId := none
      startOffset := none
      endId := none
      endOffset := none
      vir := Global.new
      localTs := ts
      lamportTs := lam
      localClock := lc
      lamportClock := lamc }
    let stOut ← spliceOuter newText (sl.2.2.length + 1) st ((rs, re) :: more) sl.2.1 sl.2.2
    .ok (stOut.ops, { b with
      fragments := stOut.newFrags
      insertionSplits := stOut.splits
      localClock := stOut.localClock
      lamportClock := stOut.lamportClock })

/-- `impl ToOffset for usize`: the conversion of an integer position to
a buffer offset is the identity and never fails — no bounds check is
performed. -/
def usizeToOffset (n : Nat) (_ : Buffer) : Except BufErr Nat := .ok n

/-- `Buffer::edit` with an explicit clock instant (Rust samples
`Instant::now()`; the embedding takes it as a parameter). -/
def Buffer.editAt (b : Buffer) (ranges : List (Nat × Nat)) (newText : List Char)
    (now : Nat) : Except BufErr (List Operation × Buffer) := do
  let b := { b with history := b.history.startTransaction b.version false none now }
  let nt := if newText.length > 0 then some newText else none
  let oldRanges ← ranges.mapM (fun r => do
    let s ← usizeToOffset r.1 b
    let e ← usizeToOffset r.2 b
    Except.ok (s, e))
  let ranges' := oldRanges.filter (fun r => nt.isSome || r.2 > r.1)
  let (ops, b) ← b.spliceFragments ranges' nt
  let b ← ops.foldlM (fun (acc : Buffer) op =>
    match op with
    | .edit e _ => do
      let h := (acc.history.push e)
      let h ← h.pushUndo e.id
      Except.ok { acc with history := h }
    | _ => Except.ok acc) b
  let b := match ops.getLast? with
    | some (.edit e _) => { b with lastEdit := e.id, version := b.version.observe e.id }
    | _ => b
  let (h, committed) ← b.history.endTransaction none now
  let h := match committed with
    | some _ => h.group
    | none => h
  .ok (ops, { b with history := h })

/-- The walk of `Buffer::apply_edit`: split the endpoint fragments,
insert the new fragment (before the first existing fragment whose
insertion has a lower Lamport timestamp), and tombstone the fragments of
the range that were visible in the operation's `version_in_range`. -/
def applyEditLoop (startFrag endFrag : FragmentId) (startOff endOff : Nat)
    (vir : Global) (umap : UndoMap) (localTs : LocalTs) (lamTs : Lamport) :
    SplitsMap → List Fragment → Option (List Char) → Option Fragment →
    List Fragment → Except BufErr (SplitsMap × List Fragment)
  | splits, acc, newText, prevItem, [] =>
    (match newText with
     | some t =>
       match prevItem with
       | none => .error .panic
       | some prev =>
         let bl := buildFragmentToInsert splits prev none t localTs lamTs
         .ok (bl.2, acc ++ [bl.1])
     | none => .ok (splits, acc))
  | splits, acc, newText, prevItem, frag :: rest =>
    if newText = none && FragmentId.lt endFrag frag.id then
      .ok (splits, acc ++ frag :: rest)
    else if frag.id = startFrag || frag.id = endFrag then do
      let splitStart := if startFrag = frag.id then startOff else frag.startOff
      let splitEnd := if endFrag = frag.id then endOff else frag.endOff
      match prevItem with
      | none => .error .panic
      | some prev => do
        let res ← splitFragment splits prev frag splitStart splitEnd
        let (before, within, after) := res.1
        let splits := res.2
        let ins ←
          (match newText with
           | some t =>
             (match (match before with | some f => some f | none => prevItem) with
              | none => .error .panic
              | some pb =>
                let nxt := match within with | some f => some f | none => after
                let bl := buildFragmentToInsert splits pb nxt t localTs lamTs
                .ok (some bl.1, bl.2))
           | none => .ok ((none : Option Fragment), splits))
        let splits := ins.2
        let acc := acc ++ (match before with | some f => [f] | none => [])
        let acc := acc ++ (match ins.1 with | some f => [f] | none => [])
        let acc := acc ++ (match within with
          | some f =>
            [if f.wasVisible vir umap then
              { f with deletions := localTs :: f.deletions, visible := false }
             else f]
          | none => [])
        let acc := acc ++ (match after with | some f => [f] | none => [])
        applyEditLoop startFrag endFrag startOff endOff vir umap localTs lamTs
          splits acc none (some frag) rest
    else do
      let step ←
        (match newText with
         | some t =>
           if Lamport.lt frag.insertion.lamportTimestamp lamTs then
             match prevItem with
             | none => .error .panic
             | some prev =>
               let bl := buildFragmentToInsert splits prev (some frag) t localTs lamTs
               .ok (acc ++ [bl.1], bl.2, (none : Option (List Char)))
           else .ok (acc, splits, some t)
         | none => .ok (acc, splits, (none : Option (List Char))))
      let (acc, splits, newText) := step
      let frag' :=
        if FragmentId.lt frag.id endFrag && frag.wasVisible vir umap then
          { frag with deletions := localTs :: frag.deletions, visible := false }
        else frag
      applyEditLoop startFrag endFrag startOff endOff vir umap localTs lamTs
        splits (acc ++ [frag']) newText (some frag) rest

/-- `Buffer::apply_edit`. -/
def Buffer.applyEdit (b : Buffer) (startId : LocalTs) (startOff : Nat)
    (endId : LocalTs) (endOff : Nat) (newText : Option (List Char)) (vir : Global)
    (localTs : LocalTs) (lamTs : Lamport) : Except BufErr Buffer := do
  let startFrag ← b.resolveFragmentId startId startOff
  let endFrag ← b.resolveFragmentId endId endOff
  if b.fragments.isEmpty then .error .panic
  else
    let pre := (spanIdLt startFrag b.fragments).1
    match (spanIdLt startFrag b.fragments).2 with
    | [] => .error .panic
    | f0 :: rest0 =>
      let (acc, prevItem, rem) :=
        if startOff = f0.endOff then (pre ++ [f0], some f0, rest0)
        else (pre, pre.getLast?, f0 :: rest0)
      let out ← applyEditLoop startFrag endFrag startOff endOff vir b.undoMap
        localTs lamTs b.insertionSplits acc newText prevItem rem
      .ok { b with
        fragments := out.2
        insertionSplits := out.1
        localClock := b.localClock.observe localTs
        lamportClock := b.lamportClock.observe lamTs }

/-- The pure-insertion branch of `Buffer::apply_undo`: visit the
fragment of each split of the undone edit's insertion, recomputing its
visibility. -/
def undoWalkA (umap : UndoMap) (undoId : LocalTs) :
    List FragmentId → List Fragment → Except BufErr (List Fragment)
  | [], frags => .ok frags
  | sid :: restIds, frags =>
    let pre := (spanIdLt sid frags).1
    match (spanIdLt sid frags).2 with
    | [] => .error .panic
    | f :: tail => do
      let f' := { f with visible := f.isVisible umap, maxUndos := f.maxUndos.observe undoId }
      let out ← undoWalkA umap undoId restIds tail
      .ok (pre ++ f' :: out)

/-- The ranged branch of `Buffer::apply_undo`: visit fragments between
the edit's endpoints, recomputing visibility of those the edit touched. -/
def undoWalkB (umap : UndoMap) (undoId : LocalTs) (editVir : Global)
    (editId : LocalTs) (endFrag : FragmentId) : List Fragment → List Fragment
  | [] => []
  | f :: rest =>
    if FragmentId.lt endFrag f.id then f :: rest
    else
      let f' :=
        if editVir.observed f.insertion.id || f.insertion.id = editId then
          { f with visible := f.isVisible umap, maxUndos := f.maxUndos.observe undoId }
        else f
      f' :: undoWalkB umap undoId editVir editId endFrag rest

/-- `Buffer::apply_undo`. -/
def Buffer.applyUndo (b : Buffer) (undo : UndoOperation) : Except BufErr Buffer := do
  let b := { b with undoMap := b.undoMap.insert undo }
  match b.history.lookup undo.editId with
  | none => .error .panic
  | some edit => do
    let startFrag ← b.resolveFragmentId edit.startId edit.startOffset
    let endFrag ← b.resolveFragmentId edit.endId edit.endOffset
    if edit.startId = edit.endId && edit.startOffset = edit.endOffset then
      match SplitsMap.lookup b.insertionSplits undo.editId with
      | none => .error .panic
      | some tree =>
        match tree.map (·.fragmentId) with
        | [] => .error .panic
        | ids => do
          let frags ← undoWalkA b.undoMap undo.id ids b.fragments
          .ok { b with fragments := frags }
    else
      let pre := (spanIdLt startFrag b.fragments).1
      let rem := (spanIdLt startFrag b.fragments).2
      .ok { b with fragments :=
        pre ++ undoWalkB b.undoMap undo.id edit.versionInRange undo.editId endFrag rem }

/-- `Buffer::undo_or_redo`. -/
def Buffer.undoOrRedo (b : Buffer) (editId : LocalTs) :
    Except BufErr (Operation × Buffer) := do
  let (ts, lc) := b.localClock.tick
  let undo : UndoOperation := ⟨ts, editId, b.undoMap.undoCount editId + 1⟩
  let b := { b with localClock := lc }
  let b ← b.applyUndo undo
  let b := { b with version := b.version.observe undo.id }
  let (lam, lamc) := b.lamportClock.tick
  .ok (.undo undo lam, { b with lamportClock := lamc })

/-- `Buffer::can_apply_op`. -/
def Buffer.canApplyOp (b : Buffer) (op : Operation) : Bool :=
  if b.deferredReplicas.contains op.replicaId then false
  else
    match op with
    | .edit e _ =>
      b.version.observed e.startId && b.version.observed e.endId
        && e.versionInRange.le b.version
    | .undo u _ => b.version.observed u.editId
    | .updateSelections _ sels _ =>
      match sels with
      | some sels =>
        sels.all (fun s =>
          (match s.start with
           | .middle iid _ _ => b.version.observed iid
           | _ => true)
          && (match s.stop with
              | .middle iid _ _ => b.version.observed iid
              | _ => true))
      | none => true

/-- `Buffer::apply_op`: a duplicate Edit or Undo (already-observed id)
is skipped entirely. -/
def Buffer.applyOp (b : Buffer) (op : Operation) : Except BufErr Buffer :=
  match op with
  | .edit e lam =>
    if b.version.observed e.id then .ok b
    else do
      let b ← b.applyEdit e.startId e.startOffset e.endId e.endOffset e.newText
        e.versionInRange e.id lam
      .ok { b with version := b.version.observe e.id, history := b.history.push e }
  | .undo u lam =>
    if b.version.observed u.id then .ok b
    else do
      let b ← b.applyUndo u
      .ok { b with
        version := b.version.observe u.id
        lamportClock := b.lamportClock.observe lam }
  | .updateSelections sid sels lam =>
    let b :=
      match sels with
      | some s => { b with selections := (sid, s) :: b.selections.filter (fun p => p.1 ≠ sid) }
      | none => { b with selections := b.selections.filter (fun p => p.1 ≠ sid) }
    .ok { b with
      lamportClock := b.lamportClock.observe lam
      selectionsLastUpdate := b.selectionsLastUpdate + 1 }

/-- Modelled from the spec (design notes): the deferred operation queue
is kept in Lamport order (`operation_queue` is not in the source
tree). -/
def opqInsertOne (q : List Operation) (op : Operation) : List Operation :=
  match q with
  | [] => [op]
  | x :: rest =>
    if Lamport.lt op.lamportTimestamp x.lamportTimestamp then op :: x :: rest
    else x :: opqInsertOne rest op

def opqInsert (q : List Operation) (ops : List Operation) : List Operation :=
  ops.foldl opqInsertOne q

/-- `deferred_replicas.insert(op.replica_id())`. -/
def deferMark (b : Buffer) (op : Operation) : Buffer :=
  { b with deferredReplicas :=
      if b.deferredReplicas.contains op.replicaId then b.deferredReplicas
      else b.deferredReplicas ++ [op.replicaId] }

/-- One pass over a list of operations: apply the applicable ones,
collect the rest and mark their replicas as deferred. -/
def applyOpsPass (b : Buffer) (ops : List Operation) :
    Except BufErr (Buffer × List Operation) :=
  ops.foldlM (fun (acc : Buffer × List Operation) op =>
    if acc.1.canApplyOp op then do
      let b' ← acc.1.applyOp op
      Except.ok (b', acc.2)
    else
      Except.ok (deferMark acc.1 op, acc.2 ++ [op])) (b, [])

/-- `Buffer::flush_deferred_ops`. -/
def Buffer.flushDeferredOps (b : Buffer) : Except BufErr Buffer := do
  let pending := b.deferredOps
  let b := { b with deferredOps := [], deferredReplicas := [] }
  let (b, deferred) ← applyOpsPass b pending
  .ok { b with deferredOps := opqInsert b.deferredOps deferred }

/-- `Buffer::apply_ops`. -/
def Buffer.applyOps (b : Buffer) (ops : List Operation) : Except BufErr Buffer := do
  let (b, deferred) ← applyOpsPass b ops
  let b := { b with deferredOps := opqInsert b.deferredOps deferred }
  b.flushDeferredOps

/-- `Buffer::update_selection_set` (the returned operation is dropped
where the caller ignores it). -/
def Buffer.updateSelectionSet (b : Buffer) (sid : Lamport) (sels : List Selection) :
    Buffer :=
  let b := { b with selections := (sid, sels) :: b.selections.filter (fun p => p.1 ≠ sid) }
  let (_, lamc) := b.lamportClock.tick
  { b with lamportClock := lamc, selectionsLastUpdate := b.selectionsLastUpdate + 1 }

/-- `Buffer::undo`. -/
def Buffer.undoStep (b : Buffer) : Except BufErr (List Operation × Buffer) := do
  let (h, popped) ← b.history.popUndo
  let b := { b with history := h }
  match popped with
  | none => .ok ([], b)
  | some t => do
    let (ops, b) ← t.edits.foldlM (fun (acc : List Operation × Buffer) eid => do
        let (op, b') ← acc.2.undoOrRedo eid
        Except.ok (acc.1 ++ [op], b')) (([] : List Operation), b)
    let b :=
      match t.selectionsBefore with
      | some (sid, sels) => b.updateSelectionSet sid sels
      | none => b
    .ok (ops, b)

/-- `Buffer::redo`. -/
def Buffer.redoStep (b : Buffer) : Except BufErr (List Operation × Buffer) := do
  let (h, popped) ← b.history.popRedo
  let b := { b with history := h }
  match popped with
  | none => .ok ([], b)
  | some t => do
    let (ops, b) ← t.edits.foldlM (fun (acc : List Operation × Buffer) eid => do
        let (op, b') ← acc.2.undoOrRedo eid
        Except.ok (acc.1 ++ [op], b')) (([] : List Operation), b)
    let b :=
      match t.selectionsAfter with
      | some (sid, sels) => b.updateSelectionSet sid sels
      | none => b
    .ok (ops, b)

/-- `Buffer::anchor_at`. -/
def Buffer.anchorAt (b : Buffer) (offset : Nat) (bias : AnchorBias) :
    Except BufErr Anchor :=
  let maxOffset := b.len
  if offset > maxOffset then .error .offsetOutOfRange
  else
    match bias with
    | .left =>
      if offset = 0 then .ok .start
      else
        let sl := sliceSumLeft Fragment.visibleLen offset 0 b.fragments
        match sl.2.2 with
        | [] => .error .panic
        | f :: _ => .ok (.middle f.insertion.id (f.startOff + (offset - sl.2.1)) .left)
    | .right =>
      if offset = maxOffset then .ok .stop
      else
        let sl := sliceSumRight Fragment.visibleLen offset 0 b.fragments
        match sl.2.2 with
        | [] => .error .panic
        | f :: _ => .ok (.middle f.insertion.id (f.startOff + (offset - sl.2.1)) .right)

/-- `Buffer::anchor_before`. -/
def Buffer.anchorBefore (b : Buffer) (offset : Nat) : Except BufErr Anchor :=
  b.anchorAt offset .left

/-- `Buffer::anchor_after`. -/
def Buffer.anchorAfter (b : Buffer) (offset : Nat) : Except BufErr Anchor :=
  b.anchorAt offset .right

/-! Concrete executions used by the claims. -/

/-- The five-step local edit chain of the spec's scenario 1, returning
the text after each step. -/
def editChainScenario : Except BufErr (List (List Char)) := do
  let b0 := Buffer.new 0 "abc".data
  let (_, b1) ← b0.editAt [(3, 3)] "def".data 0
  let (_, b2) ← b1.editAt [(0, 0)] "ghi".data 0
  let (_, b3) ← b2.editAt [(5, 5)] "jkl".data 0
  let (_, b4) ← b3.editAt [(6, 7)] [] 0
  let (_, b5) ← b4.editAt [(4, 9)] "mno".data 0
  .ok [b1.text, b2.text, b3.text, b4.text, b5.text]

/-- The concurrent-edit exchange of the spec's scenario 2: texts of both
replicas after the exchange, with their selection maps. -/
def convergenceScenario :
    Except BufErr ((List Char × List Char) ×
      (List (Lamport × List Selection) × List (Lamport × List Selection))) := do
  let a := Buffer.new 0 "abcdef".data
  let b := Buffer.new 1 "abcdef".data
  let (opsA, a) ← a.editAt [(2, 4)] "XYZ".data 0
  let (opsB, b) ← b.editAt [(5, 5)] "u".data 0
  let a ← a.applyOps opsB
  let b ← b.applyOps opsA
  .ok ((a.text, b.text), (a.selections, b.selections))

/-- Introduced for claim C1's concrete half (the universal convergence
statement itself is out of reach of this development): replicas A
(id 0) and B (id 1) both start at "abcdef"; A edits (2..4, "XYZ"), B
concurrently edits (5..5, "u"); after exchanging operations both texts
are "abXYZeuf" and the selection maps agree (both empty). -/
theorem convergence_exchange_scenario :
    convergenceScenario =
      .ok (("abXYZeuf".data, "abXYZeuf".data), ([], [])) := by
  rfl

/-- C2: starting from "abc", the edits (3..3, "def"), (0..0, "ghi"),
(5..5, "jkl"), (6..7, ""), (4..9, "mno") produce the texts "abcdef",
"ghiabcdef", "ghiabjklcdef", "ghiabjlcdef", "ghiamnoef" in turn. -/
theorem C2_local_edit_scenario :
    editChainScenario = .ok ["abcdef".data, "ghiabcdef".data,
      "ghiabjklcdef".data, "ghiabjlcdef".data, "ghiamnoef".data] := by
  rfl

/-! Dense fragment identifiers (claim C8). -/

/-- The identifier order asserted by the spec: lexicographic with
implicit trailing zeros on the shorter side (spec section 3). -/
def FragmentId.padLt : List Nat → List Nat → Bool
  | [], rs => rs.any (fun r => 0 < r)
  | _ :: _, [] => false
  | l :: ls, r :: rs => l < r || (l = r && FragmentId.padLt ls rs)

/-- All digits are 16-bit values, as `FragmentId` stores `u16`s. -/
def digitsOk (l : List Nat) : Bool := l.all (fun d => d < 65536)

/-- Digit-wise domination: at every position the left identifier's
zero-padded digit is at most the right identifier's 0xFFFF-padded
digit.  Under this condition the digit subtraction of
`between_with_max` never wraps. -/
def domOk (a b : List Nat) : Bool :=
  (List.range a.length).all (fun i => a.getD i 0 ≤ b.getD i 65535)

theorem padLt_nil_right : ∀ ls : List Nat, FragmentId.padLt ls [] = false
  | [] => rfl
  | _ :: _ => rfl

theorem domOk_iff (a b : List Nat) :
    domOk a b = true ↔ ∀ i, a.getD i 0 ≤ b.getD i 65535 := by
  unfold domOk
  simp only [List.all_eq_true, List.mem_range, decide_eq_true_eq]
  constructor
  · intro h i
    by_cases hi : i < a.length
    · exact h i hi
    · rw [List.getD_eq_default _ _ (Nat.le_of_not_lt hi)]
      exact Nat.zero_le _
  · intro h i _
    exact h i

theorem digitsOk_iff (l : List Nat) :
    digitsOk l = true ↔ ∀ d ∈ l, d < 65536 := by
  unfold digitsOk
  simp [List.all_eq_true]

theorem getD_headD (l : List Nat) (d : Nat) : l.getD 0 d = l.headD d := by
  cases l <;> rfl

theorem getD_tail_nat (l : List Nat) (i d : Nat) : l.tail.getD i d = l.getD (i + 1) d := by
  cases l <;> rfl

/-- Lower bound: the constructed identifier is strictly above the left
input whenever the digit-domination condition holds. -/
theorem betweenAux_gt_left : ∀ (fuel : Nat) (ls rs : List Nat),
    (∀ i, ls.getD i 0 ≤ rs.getD i 65535) →
    (∀ r ∈ rs, r < 65536) →
    ls.length + rs.length < fuel →
    FragmentId.padLt ls (FragmentId.betweenAux 65535 fuel ls rs) = true := by
  intro fuel
  induction fuel with
  | zero => intro ls rs _ _ h; omega
  | succ n ih =>
    intro ls rs hdom hdig hlen
    have hl0 : ls.headD 0 ≤ rs.headD 65535 := by
      have := hdom 0
      rwa [getD_headD, getD_headD] at this
    have hr0 : rs.headD 65535 < 65536 := by
      cases rs with
      | nil => simp
      | cons r rs' => exact hdig r (List.mem_cons_self r rs')
    rw [FragmentId.betweenAux]
    set l := ls.headD 0 with hldef
    set r := rs.headD 65535 with hrdef
    have hint : (r + 65536 - l) % 65536 = r - l := by omega
    rw [hint]
    by_cases hgap : r - l > 1
    · rw [if_pos hgap]
      have hd1 : 1 ≤ max 1 (min 8 ((r - l) / 2)) := Nat.le_max_left _ _
      have hd2 : max 1 (min 8 ((r - l) / 2)) ≤ (r - l) / 2 := by
        have : 1 ≤ min 8 ((r - l) / 2) := by omega
        omega
      have hc : (l + max 1 (min 8 ((r - l) / 2))) % 65536
          = l + max 1 (min 8 ((r - l) / 2)) := by
        apply Nat.mod_eq_of_lt
        omega
      rw [hc]
      cases ls with
      | nil =>
        simp only [FragmentId.padLt, List.any_cons, List.any_nil]
        have : l = 0 := rfl
        simp only [Bool.or_false, decide_eq_true_eq]
        omega
      | cons x t =>
        have hx : l = x := rfl
        simp only [FragmentId.padLt, Bool.or_eq_true, decide_eq_true_eq]
        left
        omega
    · rw [if_neg hgap]
      have hne : ls ≠ [] ∨ rs ≠ [] := by
        by_contra hboth
        push_neg at hboth
        obtain ⟨h1, h2⟩ := hboth
        subst h1; subst h2
        simp at hldef hrdef
        omega
      have hrec := ih ls.tail rs.tail
        (fun i => by rw [getD_tail_nat, getD_tail_nat]; exact hdom (i + 1))
        (fun x hx => hdig x (List.mem_of_mem_tail hx))
        (by
          cases ls with
          | nil =>
            cases rs with
            | nil => simp at hne
            | cons r' rs' => simp at hlen ⊢; omega
          | cons x t =>
            cases rs with
            | nil => simp at hlen ⊢; omega
            | cons r' rs' => simp at hlen ⊢; omega)
      cases ls with
      | nil =>
        have hl : l = 0 := rfl
        simp only [List.tail_nil] at hrec
        simp only [FragmentId.padLt] at hrec ⊢
        rw [hl]
        simp only [List.any_cons, Bool.or_eq_true, decide_eq_true_eq]
        exact Or.inr hrec
      | cons x t =>
        have hx : l = x := rfl
        simp only [List.tail_cons] at hrec
        simp only [FragmentId.padLt, Bool.or_eq_true, decide_eq_true_eq,
          Bool.and_eq_true]
        right
        rw [← hx]
        exact ⟨by simp, hrec⟩

/-- Upper bound: the constructed identifier is strictly below the right
input whenever domination holds and the left input is strictly below
the right one. -/
theorem betweenAux_lt_right : ∀ (fuel : Nat) (ls rs : List Nat),
    (∀ i, ls.getD i 0 ≤ rs.getD i 65535) →
    (∀ r ∈ rs, r < 65536) →
    ls.length + rs.length < fuel →
    FragmentId.padLt ls rs = true →
    FragmentId.padLt (FragmentId.betweenAux 65535 fuel ls rs) rs = true := by
  intro fuel
  induction fuel with
  | zero => intro ls rs _ _ h; omega
  | succ n ih =>
    intro ls rs hdom hdig hlen hlt
    cases rs with
    | nil => rw [padLt_nil_right] at hlt; cases hlt
    | cons r rs' =>
      have hl0 : ls.headD 0 ≤ r := by
        have := hdom 0
        rwa [getD_headD] at this
      have hr0 : r < 65536 := hdig r (List.mem_cons_self r rs')
      rw [FragmentId.betweenAux]
      set l := ls.headD 0 with hldef
      have hhead : (r :: rs').headD 65535 = r := rfl
      rw [hhead]
      have hint : (r + 65536 - l) % 65536 = r - l := by omega
      rw [hint]
      by_cases hgap : r - l > 1
      · rw [if_pos hgap]
        have hd2 : max 1 (min 8 ((r - l) / 2)) ≤ (r - l) / 2 := by
          have : 1 ≤ min 8 ((r - l) / 2) := by omega
          omega
        have hc : (l + max 1 (min 8 ((r - l) / 2))) % 65536
            = l + max 1 (min 8 ((r - l) / 2)) := by
          apply Nat.mod_eq_of_lt
          omega
        rw [hc]
        simp only [FragmentId.padLt, Bool.or_eq_true, decide_eq_true_eq]
        left
        omega
      · rw [if_neg hgap]
        by_cases heq : l = r
        · have htail : FragmentId.padLt ls.tail rs' = true := by
            cases ls with
            | nil =>
              have : l = 0 := rfl
              simp only [FragmentId.padLt, List.any_cons, decide_eq_true_eq] at hlt
              simp only [FragmentId.padLt]
              rcases Bool.or_eq_true _ _ |>.mp hlt with h | h
              · exfalso; rw [decide_eq_true_eq] at h; omega
              · exact h
            | cons x t =>
              have hx : l = x := rfl
              simp only [FragmentId.padLt, Bool.or_eq_true, decide_eq_true_eq,
                Bool.and_eq_true] at hlt
              rcases hlt with h | ⟨_, h⟩
              · omega
              · exact h
          have hrec := ih ls.tail rs'
            (fun i => by
              rw [getD_tail_nat]
              have := hdom (i + 1)
              exact this)
            (fun x hx => hdig x (List.mem_cons_of_mem r hx))
            (by
              cases ls with
              | nil => simp at hlen ⊢; omega
              | cons x t => simp at hlen ⊢; omega)
            htail
          simp only [FragmentId.padLt, Bool.or_eq_true, decide_eq_true_eq,
            Bool.and_eq_true]
          right
          exact ⟨heq, hrec⟩
        · simp only [FragmentId.padLt, Bool.or_eq_true, decide_eq_true_eq]
          left
          omega

/-- Domination closure: the constructed identifier dominates the left
input and is dominated by the right one, and its digits are 16-bit, so
the construction can be iterated. -/
theorem betweenAux_dom : ∀ (fuel : Nat) (ls rs : List Nat),
    (∀ i, ls.getD i 0 ≤ rs.getD i 65535) →
    (∀ r ∈ rs, r < 65536) →
    (∀ l ∈ ls, l < 65536) →
    ls.length + rs.length < fuel →
    (∀ i, ls.getD i 0 ≤ (FragmentId.betweenAux 65535 fuel ls rs).getD i 65535) ∧
    (∀ i, (FragmentId.betweenAux 65535 fuel ls rs).getD i 0 ≤ rs.getD i 65535) ∧
    (∀ c ∈ FragmentId.betweenAux 65535 fuel ls rs, c < 65536) := by
  intro fuel
  induction fuel with
  | zero => intro ls rs _ _ _ h; omega
  | succ n ih =>
    intro ls rs hdom hdig hdigl hlen
    have hl0 : ls.headD 0 ≤ rs.headD 65535 := by
      have := hdom 0
      rwa [getD_headD, getD_headD] at this
    have hr0 : rs.headD 65535 < 65536 := by
      cases rs with
      | nil => simp
      | cons r rs' => exact hdig r (List.mem_cons_self r rs')
    have hldigit : ∀ i, ls.getD i 0 < 65536 := by
      intro i
      by_cases hi : i < ls.length
      · have hmem : ls.getD i 0 ∈ ls := by
          rw [List.getD_eq_getElem _ _ hi]
          exact List.getElem_mem _
        exact hdigl _ hmem
      · rw [List.getD_eq_default _ _ (Nat.le_of_not_lt hi)]; omega
    rw [FragmentId.betweenAux]
    set l := ls.headD 0 with hldef
    set r := rs.headD 65535 with hrdef
    have hint : (r + 65536 - l) % 65536 = r - l := by omega
    rw [hint]
    by_cases hgap : r - l > 1
    · rw [if_pos hgap]
      have hd1 : 1 ≤ max 1 (min 8 ((r - l) / 2)) := Nat.le_max_left _ _
      have hd2 : max 1 (min 8 ((r - l) / 2)) ≤ (r - l) / 2 := by
        have : 1 ≤ min 8 ((r - l) / 2) := by omega
        omega
      have hc : (l + max 1 (min 8 ((r - l) / 2))) % 65536
          = l + max 1 (min 8 ((r - l) / 2)) := by
        apply Nat.mod_eq_of_lt
        omega
      rw [hc]
      refine ⟨?_, ?_, ?_⟩
      · intro i
        match i with
        | 0 =>
          rw [getD_headD, ← hldef]
          simp only [List.getD_cons_zero]
          omega
        | i + 1 =>
          simp only [List.getD_cons_succ, List.getD_nil]
          have := hldigit (i + 1)
          omega
      · intro i
        match i with
        | 0 =>
          simp only [List.getD_cons_zero]
          rw [getD_headD rs 65535, ← hrdef]
          omega
        | i + 1 =>
          simp only [List.getD_cons_succ, List.getD_nil]
          exact Nat.zero_le _
      · intro c hc'
        simp only [List.mem_singleton] at hc'
        omega
    · rw [if_neg hgap]
      have hne : ls ≠ [] ∨ rs ≠ [] := by
        by_contra hboth
        push_neg at hboth
        obtain ⟨h1, h2⟩ := hboth
        subst h1; subst h2
        simp at hldef hrdef
        omega
      have hlen' : ls.tail.length + rs.tail.length < n := by
        cases ls with
        | nil =>
          cases rs with
          | nil => simp at hne
          | cons r' rs' => simp at hlen ⊢; omega
        | cons x t =>
          cases rs with
          | nil => simp at hlen ⊢; omega
          | cons r' rs' => simp at hlen ⊢; omega
      have hrec := ih ls.tail rs.tail
        (fun i => by rw [getD_tail_nat, getD_tail_nat]; exact hdom (i + 1))
        (fun x hx => hdig x (List.mem_of_mem_tail hx))
        (fun x hx => hdigl x (List.mem_of_mem_tail hx))
        hlen'
      refine ⟨?_, ?_, ?_⟩
      · intro i
        match i with
        | 0 =>
          simp only [List.getD_cons_zero]
          rw [getD_headD ls 0, ← hldef]
        | i + 1 =>
          simp only [List.getD_cons_succ]
          rw [← getD_tail_nat]
          exact hrec.1 i
      · intro i
        match i with
        | 0 =>
          simp only [List.getD_cons_zero]
          rw [getD_headD, ← hrdef]
          exact hl0
        | i + 1 =>
          simp only [List.getD_cons_succ]
          rw [← getD_tail_nat rs]
          exact hrec.2.1 i
      · intro c hc'
        rcases List.mem_cons.mp hc' with h | h
        · subst h
          have := hldigit 0
          rw [getD_headD] at this
          exact this
        · exact hrec.2.2 c h

/-- C8 counterexample: at `a = [1, 0xFFFF]`, `b = [2, 5]` (both between
MIN and MAX, with `a < b` in the trailing-zeros order) the 16-bit digit
arithmetic of `between_with_max` wraps around and produces `[1, 2]`,
which is *below* `a`; so `between` does not return an identifier
strictly between every pair `a < b`. -/
theorem C8_counterexample :
    FragmentId.padLt [1, 65535] [2, 5] = true ∧
    FragmentId.padLt [0] [1, 65535] = true ∧
    FragmentId.padLt [2, 5] [65535] = true ∧
    FragmentId.between [1, 65535] [2, 5] = [1, 2] ∧
    FragmentId.padLt [1, 65535] (FragmentId.between [1, 65535] [2, 5]) = false := by
  decide

/-- C8 (amended): for identifiers with 16-bit digits and `a < b` in the
trailing-zeros lexicographic order, *and whose digits satisfy the
pointwise domination `a[i] (0-padded) ≤ b[i] (0xFFFF-padded)* — without
which the u16 subtraction in the construction wraps —
`FragmentId::between` returns `c` with `a < c < b`; domination is
preserved on both sides of `c` and `c` again has 16-bit digits, so the
insertion can be repeated between the new neighbours indefinitely and
never collides. -/
theorem C8_between_amended (a b : FragmentId)
    (hda : digitsOk a = true) (hdb : digitsOk b = true)
    (hdom : domOk a b = true) (hlt : FragmentId.padLt a b = true) :
    FragmentId.padLt a (FragmentId.between a b) = true ∧
    FragmentId.padLt (FragmentId.between a b) b = true ∧
    domOk a (FragmentId.between a b) = true ∧
    domOk (FragmentId.between a b) b = true ∧
    digitsOk (FragmentId.between a b) = true := by
  have hdom' := (domOk_iff a b).mp hdom
  have hda' := (digitsOk_iff a).mp hda
  have hdb' := (digitsOk_iff b).mp hdb
  have hlen : List.length a + List.length b < List.length a + List.length b + 1 :=
    Nat.lt_succ_self _
  unfold FragmentId.between FragmentId.betweenWithMax
  refine ⟨betweenAux_gt_left _ a b hdom' hdb' hlen,
          betweenAux_lt_right _ a b hdom' hdb' hlen hlt,
          ?_, ?_, ?_⟩
  · rw [domOk_iff]
    exact (betweenAux_dom _ a b hdom' hdb' hda' hlen).1
  · rw [domOk_iff]
    exact (betweenAux_dom _ a b hdom' hdb' hda' hlen).2.1
  · rw [digitsOk_iff]
    exact (betweenAux_dom _ a b hdom' hdb' hda' hlen).2.2

/-- Witness for C8's amended theorem at `a = [1]`, `b = [2]`. -/
theorem C8_between_amended_witness :
    (digitsOk [1] = true ∧ digitsOk [2] = true ∧ domOk [1] [2] = true ∧
      FragmentId.padLt [1] [2] = true) ∧
    (FragmentId.padLt [1] (FragmentId.between [1] [2]) = true ∧
      FragmentId.padLt (FragmentId.between [1] [2]) [2] = true ∧
      domOk [1] (FragmentId.between [1] [2]) = true ∧
      domOk (FragmentId.between [1] [2]) [2] = true ∧
      digitsOk (FragmentId.between [1] [2]) = true) :=
  ⟨⟨by decide, by decide, by decide, by decide⟩,
   C8_between_amended [1] [2] (by decide) (by decide) (by decide) (by decide)⟩

/-! Anchors (claim C7). -/

theorem sliceSumLeft_rest_ne {α : Type} (w : α → Nat) (target : Nat) :
    ∀ (l : List α) (acc : Nat), acc < target →
      target ≤ acc + l.foldr (fun x a => w x + a) 0 →
      (sliceSumLeft w target acc l).2.2 ≠ [] := by
  intro l
  induction l with
  | nil =>
    intro acc h1 h2
    simp only [List.foldr_nil] at h2
    omega
  | cons x rest ih =>
    intro acc h1 h2
    simp only [sliceSumLeft]
    by_cases hc : acc + w x < target
    · rw [if_pos hc]
      have := ih (acc + w x) hc (by simp only [List.foldr_cons] at h2; omega)
      simpa using this
    · rw [if_neg hc]
      simp

theorem sliceSumRight_rest_ne {α : Type} (w : α → Nat) (target : Nat) :
    ∀ (l : List α) (acc : Nat), acc ≤ target →
      target < acc + l.foldr (fun x a => w x + a) 0 →
      (sliceSumRight w target acc l).2.2 ≠ [] := by
  intro l
  induction l with
  | nil =>
    intro acc h1 h2
    simp only [List.foldr_nil] at h2
    omega
  | cons x rest ih =>
    intro acc h1 h2
    simp only [sliceSumRight]
    by_cases hc : acc + w x ≤ target
    · rw [if_pos hc]
      have := ih (acc + w x) hc (by simp only [List.foldr_cons] at h2; omega)
      simpa using this
    · rw [if_neg hc]
      simp

/-- C7: `anchor_before(0)` is `Start` and `anchor_after(len)` is `End`
(so in particular on the empty buffer both anchors at offset 0);
`anchor_before`/`anchor_after` fail with offset-out-of-range exactly
when the requested offset exceeds the buffer length; and every other
in-range position yields a `Middle` anchor holding the insertion id of
the hosting fragment and the offset within its insertion. -/
theorem C7_anchors (b : Buffer) (pos : Nat) :
    b.anchorBefore 0 = .ok .start ∧
    b.anchorAfter b.len = .ok .stop ∧
    (∀ bias, pos > b.len → b.anchorAt pos bias = .error .offsetOutOfRange) ∧
    (pos ≤ b.len → ∀ bias, ∃ a, b.anchorAt pos bias = .ok a) ∧
    (0 < pos → pos ≤ b.len →
      ∃ f rest, (sliceSumLeft Fragment.visibleLen pos 0 b.fragments).2.2 = f :: rest ∧
        b.anchorBefore pos = .ok (.middle f.insertion.id
          (f.startOff + (pos - (sliceSumLeft Fragment.visibleLen pos 0 b.fragments).2.1))
          .left)) ∧
    (pos < b.len →
      ∃ f rest, (sliceSumRight Fragment.visibleLen pos 0 b.fragments).2.2 = f :: rest ∧
        b.anchorAfter pos = .ok (.middle f.insertion.id
          (f.startOff + (pos - (sliceSumRight Fragment.visibleLen pos 0 b.fragments).2.1))
          .right)) := by
  have hlen : b.len = b.fragments.foldr (fun f a => f.visibleLen + a) 0 := rfl
  refine ⟨?_, ?_, ?_, ?_, ?_, ?_⟩
  · unfold Buffer.anchorBefore Buffer.anchorAt
    simp
  · unfold Buffer.anchorAfter Buffer.anchorAt
    simp
  · intro bias h
    unfold Buffer.anchorAt
    rw [if_pos h]
  · intro hle bias
    unfold Buffer.anchorAt
    rw [if_neg (by omega)]
    cases bias with
    | left =>
      dsimp only
      by_cases h0 : pos = 0
      · rw [if_pos h0]; exact ⟨.start, rfl⟩
      · rw [if_neg h0]
        have hne := sliceSumLeft_rest_ne Fragment.visibleLen pos b.fragments 0
          (by omega) (by rw [← hlen]; omega)
        cases hrest : (sliceSumLeft Fragment.visibleLen pos 0 b.fragments).2.2 with
        | nil => exact absurd hrest hne
        | cons f rest => exact ⟨_, rfl⟩
    | right =>
      dsimp only
      by_cases h0 : pos = b.len
      · rw [if_pos h0]; exact ⟨.stop, rfl⟩
      · rw [if_neg h0]
        have hne := sliceSumRight_rest_ne Fragment.visibleLen pos b.fragments 0
          (by omega) (by rw [← hlen]; omega)
        cases hrest : (sliceSumRight Fragment.visibleLen pos 0 b.fragments).2.2 with
        | nil => exact absurd hrest hne
        | cons f rest => exact ⟨_, rfl⟩
  · intro hpos hle
    have hne := sliceSumLeft_rest_ne Fragment.visibleLen pos b.fragments 0
      (by omega) (by rw [← hlen]; omega)
    cases hrest : (sliceSumLeft Fragment.visibleLen pos 0 b.fragments).2.2 with
    | nil => exact absurd hrest hne
    | cons f rest =>
      refine ⟨f, rest, rfl, ?_⟩
      unfold Buffer.anchorBefore Buffer.anchorAt
      rw [if_neg (by omega)]
      dsimp only
      rw [if_neg (by omega), hrest]
  · intro hlt
    have hne := sliceSumRight_rest_ne Fragment.visibleLen pos b.fragments 0
      (by omega) (by rw [← hlen]; omega)
    cases hrest : (sliceSumRight Fragment.visibleLen pos 0 b.fragments).2.2 with
    | nil => exact absurd hrest hne
    | cons f rest =>
      refine ⟨f, rest, rfl, ?_⟩
      unfold Buffer.anchorAfter Buffer.anchorAt
      rw [if_neg (by omega)]
      dsimp only
      rw [if_neg (by omega), hrest]

/-- Witness for C7 on the buffer "abc" at position 2. -/
theorem C7_anchors_witness :
    ((Buffer.new 0 "abc".data).anchorBefore 0 = .ok .start ∧
      (Buffer.new 0 "abc".data).anchorAfter (Buffer.new 0 "abc".data).len = .ok .stop) ∧
    (2 > (Buffer.new 0 "abc".data).len →
      (Buffer.new 0 "abc".data).anchorAt 2 .left = .error .offsetOutOfRange) ∧
    (0 < 2 ∧ 2 ≤ (Buffer.new 0 "abc".data).len) := by
  have h := C7_anchors (Buffer.new 0 "abc".data) 2
  exact ⟨⟨h.1, h.2.1⟩, h.2.2.1 .left, by decide, by decide⟩

/-! Edit error handling (claim C6). -/

/-- The out-of-bounds edit of the C6 counterexample: on "abc", editing
`(10..10, "x")` — both endpoints beyond the buffer length 3. -/
def editOutOfBounds : Except BufErr (List Char) := do
  let b := Buffer.new 0 "abc".data
  let (_, b) ← b.editAt [(10, 10)] "x".data 0
  .ok b.text

/-- The overlapping-ranges edit of C6: on "abcdef", deleting the
overlapping ranges `(0..2)` and `(1..3)`. -/
def editOverlapping : Except BufErr (List Char) := do
  let b := Buffer.new 0 "abcdef".data
  let (_, b) ← b.editAt [(0, 2), (1, 3)] [] 0
  .ok b.text

/-- C6 counterexample: `edit` does not fail on an out-of-bounds range —
editing "abc" at `(10..10, "x")` (endpoints beyond the buffer length)
returns `Ok`, appending at the end, instead of the claimed
invalid-range error. -/
theorem C6_counterexample : editOutOfBounds = .ok "abcx".data := by rfl

/-- C6 (amended): `edit(ranges, new_text)` performs no range
validation: the `usize` to-offset conversion is the identity and never
fails, an edit with out-of-bounds endpoints succeeds (on "abc",
`(10..10, "x")` yields "abcx") rather than failing with invalid-range,
and overlapping ranges hit an internal unwrap panic rather than a
recoverable typed invalid-range failure. -/
theorem C6_edit_amended :
    (∀ (n : Nat) (b : Buffer), usizeToOffset n b = .ok n) ∧
    editOutOfBounds = .ok "abcx".data ∧
    editOverlapping = .error .panic :=
  ⟨fun _ _ => rfl, by rfl, by rfl⟩

/-! Duplicate delivery (claim C10). -/

/-- The redelivery condition of C10: an Edit or Undo operation whose id
the buffer's version has already observed. -/
def isDupEditOrUndo (b : Buffer) (op : Operation) : Bool :=
  match op with
  | .edit e _ => b.version.observed e.id
  | .undo u _ => b.version.observed u.id
  | .updateSelections _ _ _ => false

theorem isDupEditOrUndo_congr (b b' : Buffer) (op : Operation)
    (hv : b'.version = b.version) :
    isDupEditOrUndo b' op = isDupEditOrUndo b op := by
  cases op <;> simp only [isDupEditOrUndo] <;> rw [hv]

/-- `apply_op` on an already-observed Edit or Undo is the identity. -/
theorem applyOp_duplicate (b : Buffer) (op : Operation)
    (hdup : isDupEditOrUndo b op = true) :
    b.applyOp op = .ok b := by
  cases op with
  | edit e lam =>
    simp only [isDupEditOrUndo] at hdup
    unfold Buffer.applyOp
    dsimp only
    rw [hdup]
    simp
  | undo u lam =>
    simp only [isDupEditOrUndo] at hdup
    unfold Buffer.applyOp
    dsimp only
    rw [hdup]
    simp
  | updateSelections s sel lam =>
    simp [isDupEditOrUndo] at hdup

theorem flushDeferredOps_empty (x : Buffer) (hx : x.deferredOps = []) :
    x.flushDeferredOps = .ok { x with deferredOps := [], deferredReplicas := [] } := by
  unfold Buffer.flushDeferredOps
  rw [hx]
  rfl

theorem applyOpsPass_single_applied (b : Buffer) (op : Operation)
    (hca : b.canApplyOp op = true) (b1 : Buffer) (hap : b.applyOp op = .ok b1) :
    applyOpsPass b [op] = .ok (b1, []) := by
  unfold applyOpsPass
  simp only [List.foldlM_cons, List.foldlM_nil]
  rw [if_pos hca, hap]
  rfl

theorem applyOpsPass_single_deferred (b : Buffer) (op : Operation)
    (hca : ¬ b.canApplyOp op = true) :
    applyOpsPass b [op] = .ok (deferMark b op, [op]) := by
  unfold applyOpsPass
  simp only [List.foldlM_cons, List.foldlM_nil]
  rw [if_neg hca]
  rfl

theorem applyOps_eq_of_pass (b : Buffer) (ops : List Operation) (b1 : Buffer)
    (dops : List Operation) (hpass : applyOpsPass b ops = .ok (b1, dops)) :
    b.applyOps ops = Buffer.flushDeferredOps
      { b1 with deferredOps := opqInsert b1.deferredOps dops } := by
  unfold Buffer.applyOps
  rw [hpass]
  rfl

theorem applyOps_single_noop (b : Buffer) (op : Operation) (hq : b.deferredOps = [])
    (happly : ∀ b' : Buffer, b'.version = b.version → b'.applyOp op = .ok b') :
    ∃ b', b.applyOps [op] = .ok b' ∧ b'.fragments = b.fragments ∧
      b'.version = b.version ∧ b'.undoMap = b.undoMap ∧ b'.history = b.history := by
  by_cases hca : b.canApplyOp op = true
  · rw [applyOps_eq_of_pass b [op] b []
      (applyOpsPass_single_applied b op hca b (happly b rfl))]
    have hq2 : opqInsert b.deferredOps ([] : List Operation) = [] := by rw [hq]; rfl
    rw [hq2]
    rw [flushDeferredOps_empty _ rfl]
    exact ⟨_, rfl, rfl, rfl, rfl, rfl⟩
  · rw [applyOps_eq_of_pass b [op] (deferMark b op) [op]
      (applyOpsPass_single_deferred b op hca)]
    have hq2 : opqInsert (deferMark b op).deferredOps [op] = [op] := by
      show opqInsert b.deferredOps [op] = [op]
      rw [hq]
      rfl
    rw [hq2]
    set y : Buffer := { deferMark b op with deferredOps := [op] } with hy
    have hyq : y.deferredOps = [op] := rfl
    unfold Buffer.flushDeferredOps
    rw [hyq]
    dsimp only
    set y0 : Buffer := { y with deferredOps := [], deferredReplicas := [] } with hy0
    have hy0v : y0.version = b.version := rfl
    by_cases hca0 : y0.canApplyOp op = true
    · have hpass0 := applyOpsPass_single_applied y0 op hca0 y0 (happly y0 hy0v)
      rw [hpass0]
      exact ⟨_, rfl, rfl, rfl, rfl, rfl⟩
    · have hpass0 := applyOpsPass_single_deferred y0 op hca0
      rw [hpass0]
      exact ⟨_, rfl, rfl, rfl, rfl, rfl⟩

/-- C10: duplicate delivery is a no-op — for an Edit or Undo operation
whose id the buffer's version has already observed, `apply_op` returns
the buffer unchanged, and redelivery through `apply_ops` (with no
pending deferred operations) leaves the fragment tree, the version, the
undo map and the history unchanged. -/
theorem C10_duplicate_delivery (b : Buffer) (op : Operation)
    (hdup : isDupEditOrUndo b op = true)
    (hq : b.deferredOps = []) :
    b.applyOp op = .ok b ∧
    ∃ b', b.applyOps [op] = .ok b' ∧ b'.fragments = b.fragments ∧
      b'.version = b.version ∧ b'.undoMap = b.undoMap ∧ b'.history = b.history := by
  have happly : ∀ b' : Buffer, b'.version = b.version → b'.applyOp op = .ok b' := by
    intro b' hv
    apply applyOp_duplicate
    rw [isDupEditOrUndo_congr b b' op hv]
    exact hdup
  exact ⟨happly b rfl, applyOps_single_noop b op hq happly⟩

/-- The buffer and operation of C10's witness: replica 0 edits "ab" at
(0..0, "x") and the resulting operation is redelivered to it. -/
def c10buf : Buffer :=
  match (Buffer.new 0 "ab".data).editAt [(0, 0)] "x".data 0 with
  | .ok (_, b) => b
  | .error _ => Buffer.new 0 "ab".data

def c10op : Operation :=
  match (Buffer.new 0 "ab".data).editAt [(0, 0)] "x".data 0 with
  | .ok (op :: _, _) => op
  | _ => .undo ⟨⟨0, 0⟩, ⟨0, 0⟩, 0⟩ ⟨0, 0⟩

/-- Witness for C10: the buffer that produced an edit redelivers it;
`apply_op` is the identity on it. -/
theorem C10_duplicate_delivery_witness :
    (isDupEditOrUndo c10buf c10op = true ∧ c10buf.deferredOps = []) ∧
    c10buf.applyOp c10op = .ok c10buf :=
  ⟨⟨by decide, by decide⟩,
   (C10_duplicate_delivery c10buf c10op (by decide) (by decide)).1⟩

/-! Remote apply and deferral (claim C5). -/

theorem canApplyOp_congr (b b' : Buffer) (op : Operation)
    (hv : b'.version = b.version) (hd : b'.deferredReplicas = b.deferredReplicas) :
    b'.canApplyOp op = b.canApplyOp op := by
  unfold Buffer.canApplyOp
  rw [hv, hd]

theorem canApplyOp_blocked (b : Buffer) (op : Operation)
    (hblk : b.deferredReplicas.contains op.replicaId = true) :
    b.canApplyOp op = false := by
  unfold Buffer.canApplyOp
  rw [hblk]
  rfl

theorem canApplyOp_edit (b : Buffer) (e : EditOperation) (lam : Lamport)
    (hblk : b.deferredReplicas.contains (Operation.edit e lam).replicaId = false) :
    b.canApplyOp (.edit e lam)
      = (b.version.observed e.startId && b.version.observed e.endId
         && e.versionInRange.le b.version) := by
  unfold Buffer.canApplyOp
  rw [hblk]
  rfl

/-- An unapplicable operation is deferred, not rejected: `apply_ops`
returns success, the queue holds the operation, the replica is marked
blocked, and the fragment tree, version, undo map and history are
untouched. -/
theorem applyOps_single_deferral (b : Buffer) (op : Operation)
    (hq : b.deferredOps = []) (hd : b.deferredReplicas = [])
    (hca : b.canApplyOp op = false) :
    ∃ b', b.applyOps [op] = .ok b' ∧ b'.fragments = b.fragments ∧
      b'.version = b.version ∧ b'.undoMap = b.undoMap ∧ b'.history = b.history ∧
      b'.deferredOps = [op] ∧ b'.deferredReplicas = [op.replicaId] := by
  have hca' : ¬ b.canApplyOp op = true := by rw [hca]; simp
  rw [applyOps_eq_of_pass b [op] (deferMark b op) [op]
    (applyOpsPass_single_deferred b op hca')]
  have hq2 : opqInsert (deferMark b op).deferredOps [op] = [op] := by
    show opqInsert b.deferredOps [op] = [op]
    rw [hq]
    rfl
  rw [hq2]
  set y : Buffer := { deferMark b op with deferredOps := [op] } with hy
  have hyq : y.deferredOps = [op] := rfl
  unfold Buffer.flushDeferredOps
  rw [hyq]
  dsimp only
  set y0 : Buffer := { y with deferredOps := [], deferredReplicas := [] } with hy0
  have hca0 : y0.canApplyOp op = false := by
    rw [canApplyOp_congr b y0 op rfl (by rw [hd])]
    exact hca
  have hca0' : ¬ y0.canApplyOp op = true := by rw [hca0]; simp
  rw [applyOpsPass_single_deferred y0 op hca0']
  refine ⟨_, rfl, rfl, rfl, rfl, rfl, rfl, ?_⟩
  show (deferMark y0 op).deferredReplicas = [op.replicaId]
  unfold deferMark
  rfl

/-- An applicable operation is applied immediately by `apply_ops`. -/
theorem applyOps_single_apply (b : Buffer) (op : Operation) (b1 : Buffer)
    (hca : b.canApplyOp op = true)
    (hap : b.applyOp op = .ok b1) (hq1 : b1.deferredOps = []) :
    b.applyOps [op] = .ok { b1 with deferredOps := [], deferredReplicas := [] } := by
  rw [applyOps_eq_of_pass b [op] b1 [] (applyOpsPass_single_applied b op hca b1 hap)]
  have h := flushDeferredOps_empty
    { b1 with deferredOps := opqInsert b1.deferredOps ([] : List Operation) }
    (by
      show opqInsert b1.deferredOps ([] : List Operation) = []
      rw [show opqInsert b1.deferredOps ([] : List Operation) = b1.deferredOps from rfl,
        hq1])
  rw [h]

/-- `Operation::Undo` placeholder used when destructuring operation
lists in concrete runs. -/
def dummyOp : Operation := .undo ⟨⟨0, 0⟩, ⟨0, 0⟩, 0⟩ ⟨0, 0⟩

/-- The deferral/blocking scenario of C5: replica 1 produces two causally
dependent edits; replica 0 receives the second one first (deferred,
replica blocked), then the first (individually applicable but blocked in
the first pass; the flush then applies both in Lamport order).  Returns
the text, queue length and blocked set after each delivery, plus the
applicability of the first operation with and without the block. -/
def c5run : Except BufErr
    (List Char × Nat × List Nat × Bool × Bool × List Char × Nat × List Nat) := do
  let bB := Buffer.new 1 "ab".data
  let (ops1, bB) ← bB.editAt [(0, 0)] "x".data 0
  let (ops2, _) ← bB.editAt [(1, 1)] "y".data 0
  let op1 := ops1.headD dummyOp
  let a := Buffer.new 0 "ab".data
  let a1 ← a.applyOps ops2
  let cBlocked := a1.canApplyOp op1
  let cAlone := Buffer.canApplyOp { a1 with deferredReplicas := [] } op1
  let a2 ← a1.applyOps ops1
  .ok (a1.text, a1.deferredOps.length, a1.deferredReplicas, cBlocked, cAlone,
       a2.text, a2.deferredOps.length, a2.deferredReplicas)

/-- C5: an Edit is applicable iff its author is not blocked and the
local version has observed `start_id` and `end_id` with
`version_in_range ≤ version`; an unapplicable operation is deferred
rather than rejected (`apply_ops` succeeds, core state untouched);
every operation of a blocked replica is unapplicable; an applicable
operation is applied in the first pass; and in the concrete scenario a
deferred dependent edit blocks its replica's later-delivered earlier
edit until the flush applies both in Lamport order. -/
theorem C5_remote_apply_deferral :
    (∀ (b : Buffer) (op : Operation),
      b.deferredReplicas.contains op.replicaId = true → b.canApplyOp op = false) ∧
    (∀ (b : Buffer) (e : EditOperation) (lam : Lamport),
      b.deferredReplicas.contains (Operation.edit e lam).replicaId = false →
      b.canApplyOp (.edit e lam)
        = (b.version.observed e.startId && b.version.observed e.endId
           && e.versionInRange.le b.version)) ∧
    (∀ (b : Buffer) (op : Operation), b.deferredOps = [] → b.deferredReplicas = [] →
      b.canApplyOp op = false →
      ∃ b', b.applyOps [op] = .ok b' ∧ b'.fragments = b.fragments ∧
        b'.version = b.version ∧ b'.undoMap = b.undoMap ∧ b'.history = b.history ∧
        b'.deferredOps = [op] ∧ b'.deferredReplicas = [op.replicaId]) ∧
    (∀ (b : Buffer) (op : Operation) (b1 : Buffer),
      b.canApplyOp op = true → b.applyOp op = .ok b1 → b1.deferredOps = [] →
      b.applyOps [op] = .ok { b1 with deferredOps := [], deferredReplicas := [] }) ∧
    c5run = .ok ("ab".data, 1, [1], false, true, "xyab".data, 0, []) :=
  ⟨canApplyOp_blocked, canApplyOp_edit, applyOps_single_deferral,
   applyOps_single_apply, by rfl⟩

/-- Witness for C5: the blocked-replica and deferral parts instantiated
on the concrete scenario's first deferred state. -/
def c5a1 : Buffer :=
  match (do
    let bB := Buffer.new 1 "ab".data
    let (_, bB) ← bB.editAt [(0, 0)] "x".data 0
    let (ops2, _) ← bB.editAt [(1, 1)] "y".data 0
    (Buffer.new 0 "ab".data).applyOps ops2 : Except BufErr Buffer) with
  | .ok a1 => a1
  | .error _ => Buffer.new 0 "ab".data

def c5op1 : Operation :=
  match (Buffer.new 1 "ab".data).editAt [(0, 0)] "x".data 0 with
  | .ok (op :: _, _) => op
  | _ => dummyOp

/-- The second (causally dependent) operation of the C5 scenario. -/
def c5op2 : Operation :=
  match (do
    let bB := Buffer.new 1 "ab".data
    let (_, bB) ← bB.editAt [(0, 0)] "x".data 0
    bB.editAt [(1, 1)] "y".data 0 : Except BufErr (List Operation × Buffer)) with
  | .ok (op :: _, _) => op
  | _ => dummyOp

theorem C5_remote_apply_deferral_witness :
    c5a1.canApplyOp c5op1 = false ∧
    ∃ b', (Buffer.new 0 "ab".data).applyOps [c5op2] = .ok b' ∧
      b'.fragments = (Buffer.new 0 "ab".data).fragments ∧
      b'.version = (Buffer.new 0 "ab".data).version ∧
      b'.undoMap = (Buffer.new 0 "ab".data).undoMap ∧
      b'.history = (Buffer.new 0 "ab".data).history ∧
      b'.deferredOps = [c5op2] ∧
      b'.deferredReplicas = [c5op2.replicaId] := by
  constructor
  · exact C5_remote_apply_deferral.1 c5a1 c5op1 (by decide)
  · exact C5_remote_apply_deferral.2.2.1 (Buffer.new 0 "ab".data) c5op2
      (by decide) (by decide) (by decide)

/-! Undo grouping (claim C9). -/

/-- The transaction produced by merging the newer transaction `cur`
into the older `prev` during grouping. -/
def mergedTrans (prev cur : Transaction) : Transaction :=
  { prev with
    edits := prev.edits ++ cur.edits
    lastEditAt := cur.lastEditAt
    selectionsAfter := cur.selectionsAfter }

/-- `History::group` examines only the newest adjacent pair of the undo
stack: it merges them when `cur.first_edit_at - prev.last_edit_at ≤
group_interval` and otherwise (or with fewer than two transactions)
leaves the history unchanged.  Older adjacent pairs are never
examined. -/
theorem History_group_merges_newest (h : History) :
    (∀ init prev cur, h.undoStack = init ++ [prev, cur] →
      (cur.firstEditAt - prev.lastEditAt ≤ h.groupInterval →
        h.group = { h with undoStack := init ++ [mergedTrans prev cur] }) ∧
      (¬ cur.firstEditAt - prev.lastEditAt ≤ h.groupInterval →
        h.group = h)) ∧
    (∀ t, h.undoStack = [t] → h.group = h) ∧
    (h.undoStack = [] → h.group = h) := by
  refine ⟨?_, ?_, ?_⟩
  · intro init prev cur heq
    have heq' : h.undoStack = (init ++ [prev]) ++ [cur] := by
      rw [heq]
      simp
    have e1 : h.undoStack.getLast? = some cur := by
      rw [heq']
      exact List.getLast?_concat _
    have e2 : h.undoStack.dropLast = init ++ [prev] := by
      rw [heq']
      exact List.dropLast_concat
    have e3 : h.undoStack.dropLast.getLast? = some prev := by
      rw [e2]
      exact List.getLast?_concat _
    constructor
    · intro hcond
      unfold History.group
      rw [e1]
      dsimp only
      rw [e3]
      dsimp only
      rw [if_pos hcond, e2]
      rw [List.dropLast_concat]
      rfl
    · intro hcond
      unfold History.group
      rw [e1]
      dsimp only
      rw [e3]
      dsimp only
      rw [if_neg hcond]
  · intro t heq
    unfold History.group
    rw [heq]
    rfl
  · intro heq
    unfold History.group
    rw [heq]
    rfl

/-- The run refuting C9's "merges every adjacent pair" clause: commits
at instants 0 and 400 (not grouped), an undo, a commit at 450, a redo
(which pushes the 400 transaction back on top), and a commit at 460.
Returns `(first_edit_at, last_edit_at, #edits)` of each undo-stack
transaction after the final commit. -/
def c9counterRun : Except BufErr (List (Nat × Nat × Nat)) := do
  let b := Buffer.new 0 "abcdef".data
  let (_, b) ← b.editAt [(0, 1)] "A".data 0
  let (_, b) ← b.editAt [(1, 2)] "B".data 400
  let (_, b) ← b.undoStep
  let (_, b) ← b.editAt [(2, 3)] "C".data 450
  let (_, b) ← b.redoStep
  let (_, b) ← b.editAt [(3, 4)] "D".data 460
  .ok (b.history.undoStack.map (fun t => (t.firstEditAt, t.lastEditAt, t.edits.length)))

/-- C9 counterexample: after the final commit of `c9counterRun` the undo
stack still has three transactions, and its *older* adjacent pair
satisfies the grouping condition (the pair's gap is `400 - 450 = 0 ≤
300` in truncated arithmetic) yet remains unmerged — grouping only ever
merges the newest pair, not every adjacent pair satisfying the
condition. -/
theorem C9_counterexample :
    c9counterRun = .ok [(0, 0, 1), (450, 450, 1), (400, 460, 2)] ∧
    (400 - 450 ≤ UNDO_GROUP_INTERVAL) = True := by
  exact ⟨by rfl, by simp⟩

/-- The concrete grouping scenario of C9: edits committed at 0 ms and
50 ms group into one undo step; a third edit at 450 ms forms its own
step.  Returns the stack lengths after the second and third edit and
the texts along a double undo. -/
def c9groupRun : Except BufErr (Nat × Nat × List Char × List Char × List Char) := do
  let b := Buffer.new 0 "123456".data
  let (_, b) ← b.editAt [(0, 1)] "X".data 0
  let (_, b) ← b.editAt [(1, 2)] "Y".data 50
  let n1 := b.history.undoStack.length
  let (_, b) ← b.editAt [(2, 3)] "Z".data 450
  let n2 := b.history.undoStack.length
  let t0 := b.text
  let (_, b) ← b.undoStep
  let t1 := b.text
  let (_, b) ← b.undoStep
  let t2 := b.text
  .ok (n1, n2, t0, t1, t2)

/-- C9 (amended): after each outermost `end_transaction` commit,
grouping examines only the newest adjacent pair of the undo stack,
merging them (edits concatenated into the older, selections-after taken
from the newer, last-edit-at refreshed) when `cur.first_edit_at -
prev.last_edit_at ≤ group_interval`; older pairs are not examined.
With `group_interval = 300 ms`, two edits 50 ms apart form one undo
step while a third edit 400 ms later forms its own undo step. -/
theorem C9_grouping_amended :
    (∀ (h : History) init prev cur, h.undoStack = init ++ [prev, cur] →
      (cur.firstEditAt - prev.lastEditAt ≤ h.groupInterval →
        h.group = { h with undoStack := init ++ [mergedTrans prev cur] }) ∧
      (¬ cur.firstEditAt - prev.lastEditAt ≤ h.groupInterval →
        h.group = h)) ∧
    UNDO_GROUP_INTERVAL = 300 ∧
    c9groupRun = .ok (1, 2, "XYZ456".data, "XY3456".data, "123456".data) := by
  exact ⟨fun h => (History_group_merges_newest h).1, rfl, by rfl⟩

/-- Witness for C9's amended theorem: a two-transaction history with a
50 ms gap is merged into one transaction by `group`. -/
theorem C9_grouping_amended_witness :
    (let t1 : Transaction := ⟨[], false, [⟨0, 1⟩], none, none, 0, 0⟩
     let t2 : Transaction := ⟨[], false, [⟨0, 2⟩], none, none, 50, 50⟩
     let h : History := ⟨"x".data, [], [t1, t2], [], 0, 300⟩
     h.group = { h with undoStack := [mergedTrans t1 t2] }) :=
  (C9_grouping_amended.1 _ [] _ _ rfl).1 (by decide)

/-! Undo symmetry (claim C4). -/

/-- The per-fragment update performed by `apply_undo` on a touched
fragment: recompute visibility from the undo map and record the undo in
`max_undos`. -/
def updFrag (umap : UndoMap) (uid : LocalTs) (f : Fragment) : Fragment :=
  { f with visible := f.isVisible umap, maxUndos := f.maxUndos.observe uid }

theorem undoFold_init (l : List UndoOperation) :
    ∀ a, l.foldl (fun acc u => max acc u.count) a
      = max a (l.foldl (fun acc u => max acc u.count) 0) := by
  induction l with
  | nil => intro a; simp
  | cons u t ih =>
    intro a
    simp only [List.foldl_cons]
    rw [ih (max a u.count), ih (max 0 u.count)]
    omega

theorem undoCount_cons (m : UndoMap) (u : UndoOperation) (e : LocalTs) :
    UndoMap.undoCount (u :: m) e
      = if u.editId = e then max u.count (m.undoCount e) else m.undoCount e := by
  by_cases he : u.editId = e
  · rw [if_pos he]
    unfold UndoMap.undoCount
    have hfc : List.filter (fun v => v.editId = e) (u :: m)
        = u :: List.filter (fun v => v.editId = e) m := by
      simp [List.filter_cons, he]
    rw [hfc, List.foldl_cons]
    rw [undoFold_init (List.filter (fun v => v.editId = e) m) (max 0 u.count)]
    omega
  · rw [if_neg he]
    unfold UndoMap.undoCount
    have hfc : List.filter (fun v => v.editId = e) (u :: m)
        = List.filter (fun v => v.editId = e) m := by
      simp [List.filter_cons, he]
    rw [hfc]

theorem isUndone_double (m : UndoMap) (e : LocalTs) (ts1 ts2 : LocalTs) :
    ∀ e', UndoMap.isUndone
        (⟨ts2, e, m.undoCount e + 2⟩ :: ⟨ts1, e, m.undoCount e + 1⟩ :: m) e'
      = m.isUndone e' := by
  intro e'
  unfold UndoMap.isUndone
  rw [undoCount_cons, undoCount_cons]
  dsimp only
  by_cases he : e = e'
  · subst he
    rw [if_pos rfl, if_pos rfl]
    simp only [decide_eq_decide]
    omega
  · rw [if_neg he, if_neg he]

theorem undoCount_double (m : UndoMap) (e : LocalTs) (ts1 ts2 : LocalTs) :
    UndoMap.undoCount
        (⟨ts2, e, m.undoCount e + 2⟩ :: ⟨ts1, e, m.undoCount e + 1⟩ :: m) e
      = m.undoCount e + 2 := by
  rw [undoCount_cons, undoCount_cons]
  dsimp only
  rw [if_pos rfl, if_pos rfl]
  omega

theorem isVisible_congr (f : Fragment) (m m' : UndoMap)
    (h : ∀ e, m'.isUndone e = m.isUndone e) :
    f.isVisible m' = f.isVisible m := by
  unfold Fragment.isVisible
  rw [h]
  have : (fun d => m'.isUndone d) = (fun d => m.isUndone d) := funext h
  rw [this]

theorem isVisible_updFrag (u1 u2 : UndoMap) (id1 : LocalTs) (f : Fragment) :
    (updFrag u1 id1 f).isVisible u2 = f.isVisible u2 := rfl

/-- Texts are restored by a double touch: pointwise, a fragment is
either untouched or doubly updated, and the doubly updated visibility
equals the original one when the final undo map has the same parity as
the initial one. -/
def doubleRel (u1full u2full : UndoMap) (id1 id2 : LocalTs) (f g : Fragment) : Prop :=
  g = f ∨ g = updFrag u2full id2 (updFrag u1full id1 f)

def textList (l : List Fragment) : List Char :=
  l.foldr (fun f acc => (if f.visible then f.text else []) ++ acc) []

theorem textList_restore (m u1full u2full : UndoMap) (id1 id2 : LocalTs)
    (hiso : ∀ e, u2full.isUndone e = m.isUndone e) :
    ∀ (frags out : List Fragment),
      (∀ f ∈ frags, f.visible = f.isVisible m) →
      List.Forall₂ (doubleRel u1full u2full id1 id2) frags out →
      textList out = textList frags := by
  intro frags
  induction frags with
  | nil =>
    intro out _ hrel
    cases hrel
    rfl
  | cons f rest ih =>
    intro out hvis hrel
    cases hrel with
    | cons hfg hrest =>
      rename_i g out'
      have htail := ih out' (fun x hx => hvis x (List.mem_cons_of_mem f hx)) hrest
      unfold textList
      simp only [List.foldr_cons]
      rw [show List.foldr (fun f acc => (if f.visible then f.text else []) ++ acc) [] out'
          = textList out' from rfl,
        show List.foldr (fun f acc => (if f.visible then f.text else []) ++ acc) [] rest
          = textList rest from rfl, htail]
      congr 1
      rcases hfg with rfl | rfl
      · rfl
      · have hveq : (updFrag u2full id2 (updFrag u1full id1 f)).visible = f.visible := by
          show (updFrag u1full id1 f).isVisible u2full = f.visible
          rw [isVisible_updFrag, isVisible_congr f m u2full hiso]
          exact (hvis f (List.mem_cons_self f rest)).symm
        have hteq : (updFrag u2full id2 (updFrag u1full id1 f)).text = f.text := rfl
        rw [hveq, hteq]

theorem dropWhile_head_false {α : Type} (p : α → Bool) :
    ∀ (l : List α) (x : α) (r : List α), l.dropWhile p = x :: r → p x = false := by
  intro l
  induction l with
  | nil => intro x r h; simp [List.dropWhile] at h
  | cons y t ih =>
    intro x r h
    rw [List.dropWhile_cons] at h
    by_cases hp : p y = true
    · rw [if_pos hp] at h
      exact ih x r h
    · rw [if_neg hp] at h
      cases h
      simpa using hp

theorem spanIdLt_stable (s : FragmentId) (pre : List Fragment) (x : Fragment)
    (rest : List Fragment)
    (hpre : ∀ y ∈ pre, FragmentId.lt y.id s = true)
    (hx : FragmentId.lt x.id s = false) :
    spanIdLt s (pre ++ x :: rest) = (pre, x :: rest) := by
  unfold spanIdLt
  induction pre with
  | nil =>
    rw [List.nil_append, List.takeWhile_cons, List.dropWhile_cons]
    simp [hx]
  | cons y t ih =>
    have hy : FragmentId.lt y.id s = true := hpre y (List.mem_cons_self y t)
    have iht := ih (fun z hz => hpre z (List.mem_cons_of_mem y hz))
    rw [Prod.mk.injEq] at iht
    rw [List.cons_append, List.takeWhile_cons, List.dropWhile_cons]
    simp [hy, iht.1, iht.2]

theorem mem_takeWhile {α : Type} (p : α → Bool) :
    ∀ (l : List α) (a : α), a ∈ l.takeWhile p → p a = true := by
  intro l
  induction l with
  | nil => intro a h; simp [List.takeWhile] at h
  | cons x t ih =>
    intro a h
    rw [List.takeWhile_cons] at h
    by_cases hp : p x = true
    · rw [if_pos hp] at h
      rcases List.mem_cons.mp h with rfl | h'
      · exact hp
      · exact ih a h'
    · rw [if_neg hp] at h
      simp at h

theorem spanIdLt_all (s : FragmentId) :
    ∀ l : List Fragment, (∀ y ∈ l, FragmentId.lt y.id s = true) →
      spanIdLt s l = (l, []) := by
  intro l
  induction l with
  | nil => intro _; rfl
  | cons y t ih =>
    intro h
    have hy : FragmentId.lt y.id s = true := h y (List.mem_cons_self y t)
    have iht := ih (fun z hz => h z (List.mem_cons_of_mem y hz))
    unfold spanIdLt at iht ⊢
    rw [Prod.mk.injEq] at iht
    rw [List.takeWhile_cons, List.dropWhile_cons]
    simp [hy, iht.1, iht.2]

theorem forall2_append {α β : Type} {R : α → β → Prop} :
    ∀ {l₁ : List α} {l₂ : List β}, List.Forall₂ R l₁ l₂ →
      ∀ {l₃ : List α} {l₄ : List β}, List.Forall₂ R l₃ l₄ →
        List.Forall₂ R (l₁ ++ l₃) (l₂ ++ l₄) := by
  intro l₁ l₂ h
  induction h with
  | nil => intro _ _ h2; simpa using h2
  | cons hr _ ih => intro _ _ h2; exact List.Forall₂.cons hr (ih h2)

theorem doubleRel_refl (u1 u2 : UndoMap) (id1 id2 : LocalTs) :
    ∀ l : List Fragment, List.Forall₂ (doubleRel u1 u2 id1 id2) l l := by
  intro l
  induction l with
  | nil => exact List.Forall₂.nil
  | cons f t ih => exact List.Forall₂.cons (Or.inl rfl) ih

/-- Two passes of the ranged undo walk over the same span touch the same
fragments: pointwise, each fragment is untouched or doubly updated. -/
theorem undoWalkB_twice (u1 u2 : UndoMap) (id1 id2 : LocalTs) (vir : Global)
    (eid : LocalTs) (endF : FragmentId) :
    ∀ frags : List Fragment,
      List.Forall₂ (doubleRel u1 u2 id1 id2) frags
        (undoWalkB u2 id2 vir eid endF (undoWalkB u1 id1 vir eid endF frags)) := by
  intro frags
  induction frags with
  | nil => exact List.Forall₂.nil
  | cons f rest ih =>
    by_cases hlt : FragmentId.lt endF f.id = true
    · rw [show undoWalkB u1 id1 vir eid endF (f :: rest) = f :: rest by
          rw [undoWalkB, if_pos hlt],
        show undoWalkB u2 id2 vir eid endF (f :: rest) = f :: rest by
          rw [undoWalkB, if_pos hlt]]
      exact doubleRel_refl u1 u2 id1 id2 (f :: rest)
    · by_cases hc : (vir.observed f.insertion.id || f.insertion.id = eid) = true
      · rw [show undoWalkB u1 id1 vir eid endF (f :: rest)
            = updFrag u1 id1 f :: undoWalkB u1 id1 vir eid endF rest by
            rw [undoWalkB, if_neg hlt]
            dsimp only
            rw [if_pos hc]
            rfl,
          show undoWalkB u2 id2 vir eid endF
              (updFrag u1 id1 f :: undoWalkB u1 id1 vir eid endF rest)
            = updFrag u2 id2 (updFrag u1 id1 f)
                :: undoWalkB u2 id2 vir eid endF (undoWalkB u1 id1 vir eid endF rest) by
            rw [undoWalkB]
            dsimp only [updFrag]
            rw [if_neg hlt]
            rw [if_pos hc]]
        exact List.Forall₂.cons (Or.inr rfl) ih
      · rw [show undoWalkB u1 id1 vir eid endF (f :: rest)
            = f :: undoWalkB u1 id1 vir eid endF rest by
            rw [undoWalkB, if_neg hlt]
            dsimp only
            rw [if_neg hc],
          show undoWalkB u2 id2 vir eid endF
              (f :: undoWalkB u1 id1 vir eid endF rest)
            = f :: undoWalkB u2 id2 vir eid endF (undoWalkB u1 id1 vir eid endF rest) by
            rw [undoWalkB, if_neg hlt]
            dsimp only
            rw [if_neg hc]]
        exact List.Forall₂.cons (Or.inl rfl) ih

theorem except_bind_ok {α β : Type} (a : α) (k : α → Except BufErr β) :
    (Except.ok a >>= k) = k a := rfl

theorem except_bind_err {α β : Type} (er : BufErr) (k : α → Except BufErr β) :
    ((Except.error er : Except BufErr α) >>= k) = Except.error er := rfl

/-- Two passes of the split-visiting undo walk over the same split ids
touch the same fragments. -/
theorem undoWalkA_twice (u1 u2 : UndoMap) (id1 id2 : LocalTs) :
    ∀ (sids : List FragmentId) (frags out1 out2 : List Fragment),
      undoWalkA u1 id1 sids frags = .ok out1 →
      undoWalkA u2 id2 sids out1 = .ok out2 →
      List.Forall₂ (doubleRel u1 u2 id1 id2) frags out2 := by
  intro sids
  induction sids with
  | nil =>
    intro frags out1 out2 h1 h2
    simp only [undoWalkA, Except.ok.injEq] at h1 h2
    subst h1; subst h2
    exact doubleRel_refl u1 u2 id1 id2 frags
  | cons sid rest ih =>
    intro frags out1 out2 h1 h2
    simp only [undoWalkA] at h1
    cases hsp : (spanIdLt sid frags).2 with
    | nil => rw [hsp] at h1; exact Except.noConfusion h1
    | cons f tail =>
      rw [hsp] at h1
      dsimp only at h1
      cases hm1 : undoWalkA u1 id1 rest tail with
      | error er =>
        rw [hm1, except_bind_err] at h1
        exact Except.noConfusion h1
      | ok mid1 =>
        rw [hm1, except_bind_ok] at h1
        simp only [Except.ok.injEq] at h1
        have hout1 : out1 = (spanIdLt sid frags).1 ++ updFrag u1 id1 f :: mid1 :=
          h1.symm
        subst hout1
        have hsp1 : (spanIdLt sid frags).1
            = List.takeWhile (fun g => FragmentId.lt g.id sid) frags := rfl
        have hsp2 : (spanIdLt sid frags).2
            = List.dropWhile (fun g => FragmentId.lt g.id sid) frags := rfl
        have hpre : ∀ y ∈ (spanIdLt sid frags).1, FragmentId.lt y.id sid = true :=
          fun y hy =>
            mem_takeWhile (fun g => FragmentId.lt g.id sid) frags y (hsp1 ▸ hy)
        have hxf : FragmentId.lt f.id sid = false :=
          dropWhile_head_false (fun g => FragmentId.lt g.id sid) frags f tail
            (hsp2.symm.trans hsp)
        have hspan2 : spanIdLt sid
            ((spanIdLt sid frags).1 ++ updFrag u1 id1 f :: mid1)
            = ((spanIdLt sid frags).1, updFrag u1 id1 f :: mid1) :=
          spanIdLt_stable sid _ _ _ hpre hxf
        simp only [undoWalkA] at h2
        rw [hspan2] at h2
        dsimp only at h2
        cases hm2 : undoWalkA u2 id2 rest mid1 with
        | error er =>
          rw [hm2, except_bind_err] at h2
          exact Except.noConfusion h2
        | ok mid2 =>
          rw [hm2, except_bind_ok] at h2
          simp only [Except.ok.injEq] at h2
          have hout2 : out2 = (spanIdLt sid frags).1
              ++ updFrag u2 id2 (updFrag u1 id1 f) :: mid2 := h2.symm
          subst hout2
          have hfr : frags = (spanIdLt sid frags).1 ++ f :: tail := by
            have hsplit := List.takeWhile_append_dropWhile
              (p := fun g => FragmentId.lt g.id sid) (l := frags)
            rw [show frags.dropWhile (fun g => FragmentId.lt g.id sid)
                = f :: tail from hsp2.symm.trans hsp] at hsplit
            rw [hsp1]
            exact hsplit.symm
          have hmain : List.Forall₂ (doubleRel u1 u2 id1 id2)
              ((spanIdLt sid frags).1 ++ f :: tail)
              ((spanIdLt sid frags).1
                ++ updFrag u2 id2 (updFrag u1 id1 f) :: mid2) :=
            forall2_append (doubleRel_refl u1 u2 id1 id2 _)
              (List.Forall₂.cons (Or.inr rfl) (ih tail mid1 mid2 hm1 hm2))
          rw [← hfr] at hmain
          exact hmain

theorem resolveFragmentId_congr (b b' : Buffer)
    (h : b'.insertionSplits = b.insertionSplits) (eid : LocalTs) (off : Nat) :
    b'.resolveFragmentId eid off = b.resolveFragmentId eid off := by
  unfold Buffer.resolveFragmentId
  rw [h]

theorem resolveFragmentId_undoMap (b : Buffer) (x : UndoMap) (eid : LocalTs)
    (off : Nat) :
    Buffer.resolveFragmentId { b with undoMap := x } eid off
      = b.resolveFragmentId eid off := rfl

theorem undoWalkB_cons_id (u : UndoMap) (uid : LocalTs) (vir : Global)
    (eid : LocalTs) (endF : FragmentId) (x : Fragment) (xs : List Fragment) :
    ∃ x' xs', undoWalkB u uid vir eid endF (x :: xs) = x' :: xs' ∧ x'.id = x.id := by
  by_cases hlt : FragmentId.lt endF x.id = true
  · exact ⟨x, xs, by rw [undoWalkB, if_pos hlt], rfl⟩
  · by_cases hc : (vir.observed x.insertion.id || x.insertion.id = eid) = true
    · refine ⟨updFrag u uid x, undoWalkB u uid vir eid endF xs, ?_, rfl⟩
      rw [undoWalkB, if_neg hlt]
      dsimp only
      rw [if_pos hc]
      rfl
    · refine ⟨x, undoWalkB u uid vir eid endF xs, ?_, rfl⟩
      rw [undoWalkB, if_neg hlt]
      dsimp only
      rw [if_neg hc]

/-- Two successive successful runs of `apply_undo` for the same edit (the
second on the buffer produced by the first, with history and split index
unchanged) touch exactly the same fragments: pointwise, every fragment of
the original buffer is untouched or doubly updated. -/
theorem applyUndo_twice (b bb2 bm1 bm2 : Buffer) (u1 u2 : UndoOperation)
    (hfr : bb2.fragments = bm1.fragments)
    (hh : bb2.history = b.history)
    (hs : bb2.insertionSplits = b.insertionSplits)
    (he : u2.editId = u1.editId)
    (h1 : b.applyUndo u1 = .ok bm1)
    (h2 : bb2.applyUndo u2 = .ok bm2) :
    List.Forall₂ (doubleRel (u1 :: b.undoMap) (u2 :: bb2.undoMap) u1.id u2.id)
      b.fragments bm2.fragments := by
  simp only [Buffer.applyUndo] at h1 h2
  simp only [resolveFragmentId_undoMap] at h1 h2
  have hrcong : ∀ eid off, bb2.resolveFragmentId eid off
      = b.resolveFragmentId eid off :=
    fun eid off => resolveFragmentId_congr b bb2 hs eid off
  simp only [hrcong] at h2
  rw [hh, he, hs] at h2
  cases hlk : b.history.lookup u1.editId with
  | none =>
    rw [hlk] at h1
    exact Except.noConfusion h1
  | some edit =>
    rw [hlk] at h1 h2
    dsimp only at h1 h2
    cases hr1 : b.resolveFragmentId edit.startId edit.startOffset with
    | error er =>
      rw [hr1, except_bind_err] at h1
      exact Except.noConfusion h1
    | ok sf =>
      simp only [hr1, except_bind_ok] at h1 h2
      cases hr2 : b.resolveFragmentId edit.endId edit.endOffset with
      | error er =>
        rw [hr2, except_bind_err] at h1
        exact Except.noConfusion h1
      | ok ef =>
        simp only [hr2, except_bind_ok] at h1 h2
        by_cases hcond :
            (edit.startId = edit.endId && edit.startOffset = edit.endOffset) = true
        · rw [if_pos hcond] at h1 h2
          cases hsl : SplitsMap.lookup b.insertionSplits u1.editId with
          | none =>
            rw [hsl] at h1
            exact Except.noConfusion h1
          | some tree =>
            rw [hsl] at h1 h2
            dsimp only at h1 h2
            cases htm : tree.map (fun s => s.fragmentId) with
            | nil =>
              rw [htm] at h1
              exact Except.noConfusion h1
            | cons i0 ir =>
              rw [htm] at h1 h2
              dsimp only at h1 h2
              cases hw1 : undoWalkA (b.undoMap.insert u1) u1.id (i0 :: ir)
                  b.fragments with
              | error er =>
                rw [hw1, except_bind_err] at h1
                exact Except.noConfusion h1
              | ok out1 =>
                simp only [hw1, except_bind_ok, Except.ok.injEq] at h1
                subst h1
                dsimp only at hfr
                rw [hfr] at h2
                cases hw2 : undoWalkA (bb2.undoMap.insert u2) u2.id (i0 :: ir)
                    out1 with
                | error er =>
                  rw [hw2, except_bind_err] at h2
                  exact Except.noConfusion h2
                | ok out2 =>
                  simp only [hw2, except_bind_ok, Except.ok.injEq] at h2
                  subst h2
                  dsimp only
                  exact undoWalkA_twice (b.undoMap.insert u1)
                    (bb2.undoMap.insert u2) u1.id u2.id (i0 :: ir)
                    b.fragments out1 out2 hw1 hw2
        · rw [if_neg hcond] at h1 h2
          simp only [Except.ok.injEq] at h1 h2
          subst h1
          dsimp only at hfr
          have hsp1 : (spanIdLt sf b.fragments).1
              = List.takeWhile (fun g => FragmentId.lt g.id sf) b.fragments := rfl
          have hsp2d : (spanIdLt sf b.fragments).2
              = List.dropWhile (fun g => FragmentId.lt g.id sf) b.fragments := rfl
          have hpre : ∀ y ∈ (spanIdLt sf b.fragments).1,
              FragmentId.lt y.id sf = true :=
            fun y hy =>
              mem_takeWhile (fun g => FragmentId.lt g.id sf) b.fragments y
                (hsp1 ▸ hy)
          have hdecomp : b.fragments
              = (spanIdLt sf b.fragments).1 ++ (spanIdLt sf b.fragments).2 := by
            rw [hsp1, hsp2d]
            exact (List.takeWhile_append_dropWhile
              (p := fun g => FragmentId.lt g.id sf) (l := b.fragments)).symm
          cases hrm : (spanIdLt sf b.fragments).2 with
          | nil =>
            rw [hrm] at hfr
            have hwnil : undoWalkB (b.undoMap.insert u1) u1.id
                edit.versionInRange u1.editId ef ([] : List Fragment) = [] := rfl
            rw [hwnil, List.append_nil] at hfr
            have hspan2 : spanIdLt sf bb2.fragments
                = (bb2.fragments, ([] : List Fragment)) := by
              rw [hfr]
              exact spanIdLt_all sf _ hpre
            rw [hspan2] at h2
            dsimp only at h2
            subst h2
            dsimp only
            have hnil : undoWalkB (bb2.undoMap.insert u2) u2.id
                edit.versionInRange u1.editId ef ([] : List Fragment) = [] := rfl
            rw [hnil, List.append_nil, hfr]
            rw [hrm, List.append_nil] at hdecomp
            rw [← hdecomp]
            exact doubleRel_refl _ _ _ _ _
          | cons x xs =>
            rw [hrm] at hfr
            have hxf : FragmentId.lt x.id sf = false :=
              dropWhile_head_false (fun g => FragmentId.lt g.id sf) b.fragments
                x xs (hsp2d.symm.trans hrm)
            obtain ⟨x', xs', hwb, hxid⟩ := undoWalkB_cons_id
              (b.undoMap.insert u1) u1.id edit.versionInRange u1.editId ef x xs
            rw [hwb] at hfr
            have hspan2 : spanIdLt sf bb2.fragments
                = ((spanIdLt sf b.fragments).1, x' :: xs') := by
              rw [hfr]
              exact spanIdLt_stable sf _ _ _ hpre (hxid ▸ hxf)
            rw [hspan2] at h2
            dsimp only at h2
            subst h2
            dsimp only
            have hmain : List.Forall₂
                (doubleRel (u1 :: b.undoMap) (u2 :: bb2.undoMap) u1.id u2.id)
                ((spanIdLt sf b.fragments).1 ++ x :: xs)
                ((spanIdLt sf b.fragments).1
                  ++ undoWalkB (bb2.undoMap.insert u2) u2.id
                      edit.versionInRange u1.editId ef (x' :: xs')) := by
              refine forall2_append (doubleRel_refl _ _ _ _ _) ?_
              rw [← hwb]
              exact undoWalkB_twice (b.undoMap.insert u1) (bb2.undoMap.insert u2)
                u1.id u2.id edit.versionInRange u1.editId ef (x :: xs)
            rw [hrm] at hdecomp
            rw [← hdecomp] at hmain
            exact hmain

theorem except_bind_ok_inv {α β : Type} {x : Except BufErr α}
    {k : α → Except BufErr β} {v : β} (h : (x >>= k) = .ok v) :
    ∃ a, x = .ok a ∧ k a = .ok v := by
  cases x with
  | error er =>
    rw [except_bind_err] at h
    exact Except.noConfusion h
  | ok a =>
    rw [except_bind_ok] at h
    exact ⟨a, rfl, h⟩

/-- `apply_undo` only rewrites the undo map (inserting the record) and
the fragments; every other buffer field is preserved. -/
theorem applyUndo_fields (b : Buffer) (u : UndoOperation) (bout : Buffer)
    (h : b.applyUndo u = .ok bout) :
    bout.undoMap = u :: b.undoMap
    ∧ bout.history = b.history
    ∧ bout.insertionSplits = b.insertionSplits
    ∧ bout.localClock = b.localClock
    ∧ bout.version = b.version
    ∧ bout.lamportClock = b.lamportClock := by
  simp only [Buffer.applyUndo] at h
  simp only [resolveFragmentId_undoMap] at h
  cases hlk : b.history.lookup u.editId with
  | none =>
    rw [hlk] at h
    exact Except.noConfusion h
  | some edit =>
    rw [hlk] at h
    dsimp only at h
    cases hr1 : b.resolveFragmentId edit.startId edit.startOffset with
    | error er =>
      rw [hr1, except_bind_err] at h
      exact Except.noConfusion h
    | ok sf =>
      simp only [hr1, except_bind_ok] at h
      cases hr2 : b.resolveFragmentId edit.endId edit.endOffset with
      | error er =>
        rw [hr2, except_bind_err] at h
        exact Except.noConfusion h
      | ok ef =>
        simp only [hr2, except_bind_ok] at h
        by_cases hcond :
            (edit.startId = edit.endId && edit.startOffset = edit.endOffset) = true
        · rw [if_pos hcond] at h
          cases hsl : SplitsMap.lookup b.insertionSplits u.editId with
          | none =>
            rw [hsl] at h
            exact Except.noConfusion h
          | some tree =>
            rw [hsl] at h
            dsimp only at h
            cases htm : tree.map (fun s => s.fragmentId) with
            | nil =>
              rw [htm] at h
              exact Except.noConfusion h
            | cons i0 ir =>
              rw [htm] at h
              dsimp only at h
              cases hw : undoWalkA (b.undoMap.insert u) u.id (i0 :: ir)
                  b.fragments with
              | error er =>
                rw [hw, except_bind_err] at h
                exact Except.noConfusion h
              | ok out =>
                simp only [hw, except_bind_ok, Except.ok.injEq] at h
                subst h
                exact ⟨rfl, rfl, rfl, rfl, rfl, rfl⟩
        · rw [if_neg hcond] at h
          simp only [Except.ok.injEq] at h
          subst h
          exact ⟨rfl, rfl, rfl, rfl, rfl, rfl⟩

/-- C4: for an edit `e` recorded in history, two successive successful
invocations of `undo_or_redo(e)` restore the visible text (assuming the
fragments' cached visibility agrees with the undo map, the invariant of
claim C3); each invocation records `count = undo_count(e) + 1` in its
undo operation, the final maximum recorded count grows by exactly two so
the undone-parity of every edit is restored, and an edit counts as
undone exactly when its maximum recorded count is odd. -/
theorem C4_undo_symmetry (b : Buffer) (e : LocalTs) (op1 op2 : Operation)
    (b1 b2 : Buffer)
    (hI : ∀ f ∈ b.fragments, f.visible = f.isVisible b.undoMap)
    (h1 : b.undoOrRedo e = .ok (op1, b1))
    (h2 : b1.undoOrRedo e = .ok (op2, b2)) :
    b2.text = b.text
    ∧ (∃ u lam, op1 = .undo u lam ∧ u.editId = e
        ∧ u.count = b.undoMap.undoCount e + 1)
    ∧ (∃ u lam, op2 = .undo u lam ∧ u.editId = e
        ∧ u.count = b1.undoMap.undoCount e + 1)
    ∧ b2.undoMap.undoCount e = b.undoMap.undoCount e + 2
    ∧ (∀ eid, b2.undoMap.isUndone eid = b.undoMap.isUndone eid)
    ∧ (∀ (m : UndoMap) (eid : LocalTs),
        m.isUndone eid = decide (m.undoCount eid % 2 = 1)) := by
  simp only [Buffer.undoOrRedo, LocalTs.tick, Lamport.tick] at h1
  obtain ⟨bm1, ha1, h1'⟩ := except_bind_ok_inv h1
  simp only [Except.ok.injEq, Prod.mk.injEq] at h1'
  obtain ⟨hop1, hb1⟩ := h1'
  subst hop1
  subst hb1
  simp only [Buffer.undoOrRedo, LocalTs.tick, Lamport.tick] at h2
  obtain ⟨bm2, ha2, h2'⟩ := except_bind_ok_inv h2
  simp only [Except.ok.injEq, Prod.mk.injEq] at h2'
  obtain ⟨hop2, hb2⟩ := h2'
  subst hop2
  subst hb2
  have hf1 := applyUndo_fields _ _ _ ha1
  dsimp only at hf1
  have hf2 := applyUndo_fields _ _ _ ha2
  dsimp only at hf2
  have hcnt1' : UndoMap.undoCount
      (⟨b.localClock, e, b.undoMap.undoCount e + 1⟩ :: b.undoMap) e
      = b.undoMap.undoCount e + 1 := by
    rw [undoCount_cons]
    dsimp only
    rw [if_pos rfl]
    omega
  have hforall := applyUndo_twice
    { b with localClock := ⟨b.localClock.replicaId, b.localClock.value + 1⟩ }
    { bm1 with version := bm1.version.observe b.localClock,
               localClock := ⟨bm1.localClock.replicaId, bm1.localClock.value + 1⟩,
               lamportClock := ⟨bm1.lamportClock.value + 1, bm1.lamportClock.replicaId⟩ }
    bm1 bm2
    ⟨b.localClock, e, b.undoMap.undoCount e + 1⟩
    ⟨bm1.localClock, e, bm1.undoMap.undoCount e + 1⟩
    rfl hf1.2.1 hf1.2.2.1 rfl ha1 ha2
  dsimp only at hforall
  rw [hf1.1] at hforall
  rw [hcnt1'] at hforall
  have hiso := isUndone_double b.undoMap e b.localClock bm1.localClock
  refine ⟨?_, ?_, ?_, ?_, ?_, fun m eid => rfl⟩
  · exact textList_restore b.undoMap _ _ _ _ hiso b.fragments bm2.fragments
      hI hforall
  · exact ⟨_, _, rfl, rfl, rfl⟩
  · exact ⟨_, _, rfl, rfl, rfl⟩
  · show UndoMap.undoCount bm2.undoMap e = b.undoMap.undoCount e + 2
    rw [hf2.1, hf1.1, hcnt1']
    rw [undoCount_cons]
    dsimp only
    rw [if_pos rfl]
    rw [undoCount_cons]
    dsimp only
    rw [if_pos rfl]
    omega
  · intro eid
    show UndoMap.isUndone bm2.undoMap eid = b.undoMap.isUndone eid
    rw [hf2.1, hf1.1, hcnt1']
    exact isUndone_double b.undoMap e b.localClock bm1.localClock eid

/-- Concrete undo-symmetry scenario: replica 0 at "abc" replaces the
first character by "x", then undoes and redoes that edit. -/
def c4base : Buffer := Buffer.new 0 "abc".data

def c4r0 : Except BufErr (List Operation × Buffer) :=
  c4base.editAt [(0, 1)] "x".data 0

def c4buf : Buffer := match c4r0 with | .ok (_, b) => b | .error _ => c4base

def c4eid : LocalTs := c4buf.lastEdit

def c4r1 : Except BufErr (Operation × Buffer) := c4buf.undoOrRedo c4eid

def c4b1 : Buffer := match c4r1 with | .ok (_, b) => b | .error _ => c4buf

def c4op1 : Operation :=
  match c4r1 with
  | .ok (op, _) => op
  | .error _ => .undo ⟨⟨0, 0⟩, ⟨0, 0⟩, 0⟩ ⟨0, 0⟩

def c4r2 : Except BufErr (Operation × Buffer) := c4b1.undoOrRedo c4eid

def c4b2 : Buffer := match c4r2 with | .ok (_, b) => b | .error _ => c4b1

def c4op2 : Operation :=
  match c4r2 with
  | .ok (op, _) => op
  | .error _ => .undo ⟨⟨0, 0⟩, ⟨0, 0⟩, 0⟩ ⟨0, 0⟩

/-- Witness for C4: on the concrete scenario the hypotheses hold and the
double undo restores the text ("xbc" → "abc" → "xbc"). -/
theorem C4_undo_symmetry_witness :
    ((∀ f ∈ c4buf.fragments, f.visible = f.isVisible c4buf.undoMap)
      ∧ c4buf.undoOrRedo c4eid = .ok (c4op1, c4b1)
      ∧ c4b1.undoOrRedo c4eid = .ok (c4op2, c4b2))
    ∧ c4b2.text = c4buf.text :=
  have hI : ∀ f ∈ c4buf.fragments, f.visible = f.isVisible c4buf.undoMap := by
    decide
  have h1 : c4buf.undoOrRedo c4eid = .ok (c4op1, c4b1) := rfl
  have h2 : c4b1.undoOrRedo c4eid = .ok (c4op2, c4b2) := rfl
  ⟨⟨hI, h1, h2⟩,
    (C4_undo_symmetry c4buf c4eid c4op1 c4op2 c4b1 c4b2 hI h1 h2).1⟩

/-! Cached-visibility invariant (claim C3): decidable statement and
computational support on concretely reached states. -/

/-- The claimed invariant of claim C3, as a decidable check: every
fragment's cached `visible` bit equals `Fragment::is_visible` recomputed
from the current undo map. -/
def visInvariant (b : Buffer) : Bool :=
  b.fragments.all (fun f => f.visible == f.isVisible b.undoMap)

/-- A further reachable state: delete "b" from the redone buffer. -/
def c3b3 : Buffer :=
  match c4b2.editAt [(1, 2)] [] 5 with | .ok (_, b) => b | .error _ => c4b2

/-- And undo that deletion. -/
def c3b4 : Buffer :=
  match c3b3.undoOrRedo c3b3.lastEdit with | .ok (_, b) => b | .error _ => c3b3

/-- The invariant of claim C3 holds in the freshly built buffers (empty
and nonempty base) and along a concrete reachable chain exercising edit,
deletion, undo and redo. -/
theorem visInvariant_scenarios :
    (visInvariant (Buffer.new 0 "abc".data) && visInvariant (Buffer.new 1 [])
      && visInvariant c4buf && visInvariant c4b1 && visInvariant c4b2
      && visInvariant c3b3 && visInvariant c3b4) = true := by
  decide

end Zed
